import Mathlib

/-!
# Verification of the KWIC program (m2/main.go)

A shallow embedding of the Go program in `m2/main.go`, a layered KWIC
(key word in context) index generator, together with proofs about it.

Modelling conventions:

* Go bytes are `Nat` values (all arithmetic on them stays far below 256,
  so no wrap-around modelling is needed; `normalizeChar` maxes out at 51).
* The `lineHolder` Go interface becomes the structure `LineHolder` whose
  four fields are total functions; all of the program's own
  implementations read with 1-based indices exactly like the Go methods.
  Where a Go method would panic on an out-of-range slice index, the
  corresponding in-range behaviour is what the theorems use; reads are
  embedded with `List.getD` (out-of-range reads yield the default).
* `lineStorage.setWord` and `input` can abort the process via `panic`.
  They are embedded in `Except (String × Storage)`: an `error` result is
  a fatal abort carrying the diagnostic message and the storage contents
  at the moment of the abort (a Go panic does not undo prior mutations,
  so the carried state records exactly what had been written).
* The `for` loops of `wordsLess`, `linesLess` and the quicksort of
  `newAlphabetizer` are embedded with an explicit fuel argument that is
  a strict upper bound on the number of remaining iterations; the
  wrappers supply fuel that provably suffices (the `0` fuel branches are
  unreachable there), which keeps every definition structurally
  recursive and kernel-computable.
-/

namespace M2

/-- Contents of `lineStorage.array`: lines, of words, of byte values. -/
abbrev Storage := List (List (List Nat))

/-- The Go interface `lineHolder`: 1-based `(line, word, char)` addressing. -/
structure LineHolder where
  char : Nat → Nat → Nat → Nat
  lines : Nat
  words : Nat → Nat
  chars : Nat → Nat → Nat

/-- The read half of `lineStorage` (its `char`/`lines`/`words`/`chars`
methods), as a `LineHolder` over the stored array. -/
def lineStorage (s : Storage) : LineHolder where
  char := fun line word char => ((s.getD (line-1) []).getD (word-1) []).getD (char-1) 0
  lines := s.length
  words := fun line => (s.getD (line-1) []).length
  chars := fun line word => ((s.getD (line-1) []).getD (word-1) []).length

/-- Go slice indexing `l[i]` with an `int` index: panics (carrying the
storage state `st` at that moment) when `i` is out of range. -/
def goIdx {α : Type} (l : List α) (i : Int) (d : α) (st : Storage) :
    Except (String × Storage) α :=
  if 0 ≤ i ∧ i < (l.length : Int) then .ok (l.getD i.toNat d)
  else .error ("runtime error: index out of range", st)

/-- `lineStorage.setWord(line, word, char, value)`: append `value` at the
addressed position, or abort.  Mirrors the Go code statement by
statement, including the order of the three bounds checks, the two
conditional structural appends, and the final character append (whose
slice indexing can itself abort, after the structural appends already
happened). -/
def setWord (storage : Storage) (line word char : Int) (value : Nat) :
    Except (String × Storage) Storage :=
  let lines : Int := (storage.length : Int)
  if line < lines ∨ line > lines + 1 then
    .error ("Line not last or just past last (ERLSBL)", storage)
  else
    match (if line = lines then goIdx storage (line - 1) [] storage else .ok []) with
    | .error e => .error e
    | .ok lastLine =>
      let words : Int := if line = lines then (lastLine.length : Int) else 0
      if word < words ∨ word > words + 1 then
        .error ("Word not last or just past last (ERLSBW)", storage)
      else
        match (if line = lines ∧ word = words then goIdx lastLine (word - 1) [] storage
               else .ok []) with
        | .error e => .error e
        | .ok lastWord =>
          let chars : Int := if line = lines ∧ word = words then (lastWord.length : Int) else 0
          if char ≠ chars + 1 then
            .error ("Char not just past last (ERLSBC)", storage)
          else
            let storage1 := if line = lines + 1 then storage ++ [[]] else storage
            let storage2 := if word = words + 1 then
                storage1.set (line - 1).toNat ((storage1.getD (line - 1).toNat []) ++ [[]])
              else storage1
            match goIdx storage2 (line - 1) [] storage2 with
            | .error e => .error e
            | .ok ln =>
              match goIdx ln (word - 1) [] storage2 with
              | .error e => .error e
              | .ok wd =>
                .ok (storage2.set (line - 1).toNat (ln.set (word - 1).toNat (wd ++ [value])))

/-- Word separator byte (space) or line separator byte (newline). -/
def isSep (b : Nat) : Bool := b = 32 ∨ b = 10

/-- The byte loop of `input`: splits on space and newline and forwards
every other byte to `setWord` with the running 1-based counters. -/
def inputBytes : List Nat → Int → Int → Int → Storage → Except (String × Storage) Storage
  | [], _, _, _, storage => .ok storage
  | b :: rest, line, word, char, storage =>
    if b = 32 then inputBytes rest line (word + 1) 1 storage
    else if b = 10 then inputBytes rest (line + 1) 1 1 storage
    else
      match setWord storage line word char b with
      | .error e => .error e
      | .ok storage' => inputBytes rest line word (char + 1) storage'

/-- `input`: ingest a byte stream into an empty `lineStorage`
(file opening and read errors are outside the model; the stream is the
file's byte contents, consumed to end-of-file). -/
def input (bytes : List Nat) : Except (String × Storage) Storage :=
  inputBytes bytes 1 1 1 []

/-- One `shift` record of the circular shifter. -/
structure Shift where
  line : Nat
  startWord : Nat
deriving DecidableEq

/-- The shift table built by `newCircularShifter`: all `(line, word)`
pairs, lines in order, words in order within each line. -/
def newShifts (storage : LineHolder) : List Shift :=
  (List.range storage.lines).flatMap (fun l0 =>
    (List.range (storage.words (l0 + 1))).map (fun w0 => ⟨l0 + 1, w0 + 1⟩))

/-- The circular shifter view: its `char`, `lines`, `words` and `chars`
methods, each translating addresses exactly as the Go methods do. -/
def newCircularShifter (storage : LineHolder) : LineHolder where
  char := fun line word char =>
    let sh := (newShifts storage).getD (line - 1) ⟨0, 0⟩
    let word := word + sh.startWord
    let words := storage.words sh.line
    let word := if word > words then word - words else word
    storage.char sh.line word char
  lines := (newShifts storage).length
  words := fun line =>
    let sh := (newShifts storage).getD (line - 1) ⟨0, 0⟩
    storage.words sh.line
  chars := fun line word =>
    let sh := (newShifts storage).getD (line - 1) ⟨0, 0⟩
    let word := word + sh.startWord
    let words := storage.words sh.line
    let word := if word > words then word - words else word
    storage.chars sh.line word

/-- `normalizeChar`: the character rank.  Uppercase letters map to even
ranks `0, 2, 4, …`, lowercase to odd ranks `1, 3, 5, …`, every other
byte to `0`. -/
def normalizeChar (c : Nat) : Nat :=
  if 65 ≤ c ∧ c ≤ 90 then (c - 65) * 2
  else if 97 ≤ c ∧ c ≤ 122 then (c - 97) * 2 + 1
  else 0

/-- The character loop of `wordsLess`, iterating `ch = 1, 2, …`.  The Go
loop runs while `ch ≤ chars2`, so `fuel` strictly above
`chars2 + 1 - ch` makes the `0` branch unreachable. -/
def wordsLessFrom (T : LineHolder) (l1 w1 l2 w2 : Nat) : Nat → Nat → Bool
  | _, 0 => false
  | ch, fuel + 1 =>
    if T.chars l1 w1 < ch ∧ ch ≤ T.chars l2 w2 then true
    else if T.chars l2 w2 < ch then false
    else
      let n1 := normalizeChar (T.char l1 w1 ch)
      let n2 := normalizeChar (T.char l2 w2 ch)
      if n1 < n2 then true
      else if n2 < n1 then false
      else wordsLessFrom T l1 w1 l2 w2 (ch + 1) fuel

/-- `wordsLess(lines, line1, word1, line2, word2)`. -/
def wordsLess (T : LineHolder) (l1 w1 l2 w2 : Nat) : Bool :=
  wordsLessFrom T l1 w1 l2 w2 1 (T.chars l2 w2 + 1)

/-- The word loop of `linesLess`, iterating `word = 1, 2, …`; fuel as in
`wordsLessFrom`. -/
def linesLessFrom (T : LineHolder) (l1 l2 : Nat) : Nat → Nat → Bool
  | _, 0 => false
  | w, fuel + 1 =>
    if T.words l1 < w ∧ w ≤ T.words l2 then true
    else if T.words l2 < w then false
    else if wordsLess T l1 w l2 w then true
    else if wordsLess T l2 w l1 w then false
    else linesLessFrom T l1 l2 (w + 1) fuel

/-- `linesLess(lines, line1, line2)`. -/
def linesLess (T : LineHolder) (l1 l2 : Nat) : Bool :=
  linesLessFrom T l1 l2 1 (T.words l2 + 1)

/-- The three-way rotation performed by `quickSort` when
`perm[i] < perm[pivot]`: Go's parallel assignment
`perm[pivot], perm[i] = perm[i], perm[pivot]` when `i == pivot+1`, and
`perm[pivot], perm[pivot+1], perm[i] = perm[i], perm[pivot], perm[pivot+1]`
otherwise (all right-hand sides read the pre-assignment array). -/
def rotStep (perm : List Nat) (pivot i : Nat) : List Nat :=
  if i = pivot + 1 then
    (perm.set pivot (perm.getD i 0)).set i (perm.getD pivot 0)
  else
    ((perm.set pivot (perm.getD i 0)).set (pivot + 1) (perm.getD pivot 0)).set i
      (perm.getD (pivot + 1) 0)

/-- The partition loop of `quickSort` (`for i := pivot + 1; i < right; i++`).
Each iteration increases `i` by one, so fuel `right - i` suffices. -/
def partitionGo (less : Nat → Nat → Bool) :
    Nat → List Nat → Nat → Nat → Nat → List Nat × Nat
  | 0, perm, pivot, _, _ => (perm, pivot)
  | fuel + 1, perm, pivot, i, right =>
    if i < right then
      if less (perm.getD i 0) (perm.getD pivot 0) then
        partitionGo less fuel (rotStep perm pivot i) (pivot + 1) (i + 1) right
      else
        partitionGo less fuel perm pivot (i + 1) right
    else (perm, pivot)

/-- The partition loop with its adequate fuel. -/
def partitionLoop (less : Nat → Nat → Bool) (perm : List Nat) (pivot i right : Nat) :
    List Nat × Nat :=
  partitionGo less (right - i) perm pivot i right

/-- The recursive `quickSort(left, right)` closure of `newAlphabetizer`.
Both recursive calls are on strictly shorter ranges, so fuel
`right - left` suffices. -/
def quickSortGo (less : Nat → Nat → Bool) :
    Nat → List Nat → Nat → Nat → List Nat
  | 0, perm, _, _ => perm
  | fuel + 1, perm, left, right =>
    if right ≤ left + 1 then perm
    else
      let pr := partitionLoop less perm left (left + 1) right
      quickSortGo less fuel (quickSortGo less fuel pr.1 left pr.2) (pr.2 + 1) right

/-- `quickSort` on the range `[left, right)` with its adequate fuel. -/
def quickSort (less : Nat → Nat → Bool) (perm : List Nat) (left right : Nat) : List Nat :=
  quickSortGo less (right - left) perm left right

/-- The identity permutation `[1, 2, …, n]` built by `newAlphabetizer`. -/
def newPerm (n : Nat) : List Nat := (List.range n).map (fun i => i + 1)

/-- The permutation held by the alphabetizer after `quickSort(0, len(perm))`. -/
def alphaPerm (T : LineHolder) : List Nat :=
  quickSort (fun a b => linesLess T a b) (newPerm T.lines) 0 T.lines

/-- The alphabetizer view returned by `newAlphabetizer`: reads re-route
through the sorted permutation (1-based output line `i` reads underlying
line `perm[i-1]`). -/
def newAlphabetizer (T : LineHolder) : LineHolder where
  char := fun line word char => T.char ((alphaPerm T).getD (line - 1) 0) word char
  lines := T.lines
  words := fun line => T.words ((alphaPerm T).getD (line - 1) 0)
  chars := fun line word => T.chars ((alphaPerm T).getD (line - 1) 0) word

/-- `output`: emit every line, words separated by single spaces, a
newline after each line, as the byte list written to the sink. -/
def output (T : LineHolder) : List Nat :=
  (List.range T.lines).flatMap (fun l0 =>
    ((List.range (T.words (l0 + 1))).flatMap (fun w0 =>
      (List.range (T.chars (l0 + 1) (w0 + 1))).map
        (fun c0 => T.char (l0 + 1) (w0 + 1) (c0 + 1))
      ++ (if w0 + 1 < T.words (l0 + 1) then [32] else [])))
    ++ [10])

/-! ### Specification-side helper definitions

These are not part of the program; they are the vocabulary in which the
theorems below describe it. -/

/-- Whether a fallible call returned normally (did not abort). -/
def isOkE {ε α : Type} : Except ε α → Bool
  | .ok _ => true
  | .error _ => false

/-- The rank string of word `(l, w)` of `T`: the `normalizeChar` images of
its characters in order. -/
def wordKey (T : LineHolder) (l w : Nat) : List Nat :=
  (List.range (T.chars l w)).map (fun c0 => normalizeChar (T.char l w (c0 + 1)))

/-- The list of rank strings of the words of line `l` of `T`. -/
def lineKey (T : LineHolder) (l : Nat) : List (List Nat) :=
  (List.range (T.words l)).map (fun w0 => wordKey T l (w0 + 1))

/-- Strict lexicographic-with-prefix order on rank strings (a proper
prefix is smaller). -/
def lexLt : List Nat → List Nat → Bool
  | _, [] => false
  | [], _ :: _ => true
  | a :: as, b :: bs => if a < b then true else if b < a then false else lexLt as bs

/-- Strict lexicographic-with-prefix order on lists of rank strings,
comparing entries with `lexLt`. -/
def lexLtK : List (List Nat) → List (List Nat) → Bool
  | _, [] => false
  | [], _ :: _ => true
  | a :: as, b :: bs => if lexLt a b then true else if lexLt b a then false else lexLtK as bs

/-- The segment `[a, b)` of a list. -/
def seg (a b : Nat) (l : List Nat) : List Nat := (l.drop a).take (b - a)

/-- Words of one line joined by single spaces. -/
def joinWords : List (List Nat) → List Nat
  | [] => []
  | [w] => w
  | w :: w2 :: ws => w ++ 32 :: joinWords (w2 :: ws)

/-- The bytes of a line after its first word: every further word
preceded by one space. -/
def wordsTail (ws : List (List Nat)) : List Nat := (ws.map (fun w => 32 :: w)).flatten

/-- A document rendered in the emitter's format: every line's words
joined by single spaces, a newline after every line. -/
def render (d : Storage) : List Nat := (d.map (fun ws => joinWords ws ++ [10])).flatten

/-- The same rendering but without the final trailing newline. -/
def renderNT : Storage → List Nat
  | [] => []
  | [ws] => joinWords ws
  | ws :: ws2 :: rest => joinWords ws ++ 10 :: renderNT (ws2 :: rest)

/-- A well-formed document: no empty lines, no empty words, no separator
bytes inside words (so its rendering has single spaces between words and
exactly one newline per line). -/
def WFdoc (d : Storage) : Bool :=
  d.all (fun ln => !ln.isEmpty && ln.all (fun w => !w.isEmpty && w.all (fun b => !(b == 32 || b == 10))))

/-- Number of words of the last line of a storage. -/
def wordsOf (s : Storage) : Nat := (s.getD (s.length - 1) []).length

/-- Number of characters of the last word of the last line of a storage. -/
def charsOf (s : Storage) : Nat :=
  ((s.getD (s.length - 1) []).getD (wordsOf s - 1) []).length

/-- The triples `(line, word, char)` accepted by `setWord`: the next
character of the last word of the last line, the first character of a
new word on the last line, or the first character of the first word of a
new line. -/
def SetWordOk (s : Storage) (line word char : Int) : Prop :=
  (line = (s.length : Int) + 1 ∧ word = 1 ∧ char = 1)
  ∨ (1 ≤ s.length ∧ line = (s.length : Int) ∧ word = (wordsOf s : Int) + 1 ∧ char = 1)
  ∨ (1 ≤ s.length ∧ line = (s.length : Int) ∧ 1 ≤ wordsOf s ∧ word = (wordsOf s : Int)
      ∧ char = (charsOf s : Int) + 1)

/-- Number of shift-table entries contributed by the lines before line
`l` (1-based), i.e. the output index at which line `l`'s rotations start. -/
def sumWords (T : LineHolder) (l : Nat) : Nat :=
  ((List.range (l - 1)).map (fun l0 => T.words (l0 + 1))).sum

/-- The rotation address translation of the shifter for a line of `wc`
words, startWord `k`: the source word read when the rotation's word `w`
is requested. -/
def rotWord (k wc w : Nat) : Nat := if w + k > wc then w + k - wc else w + k

/-- Fixture: the one-line two-word document `ab cd`. -/
def stAB : Storage := [[[97, 98], [99, 100]]]

/-- Fixture: three one-word lines `b`, `a`, `c`. -/
def stBAC : Storage := [[[98]], [[97]], [[99]]]

/-- Fixture: one-word lines `A`, space, `5`, `!` (for rank collisions). -/
def stPunct : Storage := [[[65]], [[32]], [[53]], [[33]]]

/-! ## General list lemmas -/

theorem getD_set_ne {α : Type} (l : List α) (i j : Nat) (a d : α) (h : i ≠ j) :
    (l.set i a).getD j d = l.getD j d := by
  simp [List.getD_eq_getElem?_getD, List.getElem?_set_ne h]

theorem getD_set_self {α : Type} (l : List α) (i : Nat) (a d : α) (h : i < l.length) :
    (l.set i a).getD i d = a := by
  simp [List.getD_eq_getElem?_getD, List.getElem?_set_eq_of_lt _ h]

theorem getD_append_left {α : Type} (l₁ l₂ : List α) (i : Nat) (d : α) (h : i < l₁.length) :
    (l₁ ++ l₂).getD i d = l₁.getD i d := by
  simp [List.getD_eq_getElem?_getD, List.getElem?_append_left h]

theorem getD_append_sub {α : Type} (l₁ l₂ : List α) (i : Nat) (d : α) (h : l₁.length ≤ i) :
    (l₁ ++ l₂).getD i d = l₂.getD (i - l₁.length) d := by
  simp [List.getD_eq_getElem?_getD, List.getElem?_append_right h]

theorem getD_map_range {α : Type} (n i : Nat) (f : Nat → α) (d : α) (h : i < n) :
    ((List.range n).map f).getD i d = f i := by
  rw [List.getD_eq_getElem ((List.range n).map f) d (by simpa using h)]
  simp

theorem getD_drop (l : List Nat) (a j : Nat) :
    (l.drop a).getD j 0 = l.getD (a + j) 0 := by
  simp [List.getD_eq_getElem?_getD, List.getElem?_drop]

theorem drop_len_le {α : Type} (l : List α) (a : Nat) (h : l.length ≤ a) : l.drop a = [] :=
  List.drop_eq_nil_of_le h

theorem map_range_getD {α : Type} (l : List α) (d : α) :
    (List.range l.length).map (fun i => l.getD i d) = l := by
  induction l with
  | nil => rfl
  | cons x xs ih =>
    show (List.range (xs.length + 1)).map _ = _
    rw [List.range_succ_eq_map, List.map_cons, List.map_map]
    exact congrArg (x :: ·) ih

theorem flatMap_range_getD {α β : Type} (l : List α) (f : α → List β) (d : α) :
    (List.range l.length).flatMap (fun i => f (l.getD i d)) = (l.map f).flatten := by
  induction l with
  | nil => rfl
  | cons x xs ih =>
    show (List.range (xs.length + 1)).flatMap _ = _
    rw [List.range_succ_eq_map, List.flatMap_cons, List.flatMap_map, List.map_cons,
      List.flatten_cons]
    exact congrArg (f x ++ ·) ih

/-! ## The comparator: lexicographic characterization -/

theorem lexLt_nil_right (a : List Nat) : lexLt a [] = false := by
  cases a <;> rfl

theorem wordsLessFrom_eq_lexLt (T : LineHolder) (l1 w1 l2 w2 : Nat) :
    ∀ (fuel ch : Nat), 1 ≤ ch → T.chars l2 w2 + 1 ≤ ch + fuel →
      wordsLessFrom T l1 w1 l2 w2 ch fuel
        = lexLt ((wordKey T l1 w1).drop (ch - 1)) ((wordKey T l2 w2).drop (ch - 1)) := by
  intro fuel
  induction fuel with
  | zero =>
    intro ch h1 h2
    have hd : (wordKey T l2 w2).drop (ch - 1) = [] := by
      apply List.drop_eq_nil_of_le
      simp only [wordKey, List.length_map, List.length_range]
      omega
    rw [hd, lexLt_nil_right]
    rfl
  | succ fuel ih =>
    intro ch h1 h2
    rw [wordsLessFrom]
    by_cases hc1 : T.chars l1 w1 < ch ∧ ch ≤ T.chars l2 w2
    · have hd1 : (wordKey T l1 w1).drop (ch - 1) = [] := by
        apply List.drop_eq_nil_of_le
        simp only [wordKey, List.length_map, List.length_range]
        omega
      have hd2 : ch - 1 < (wordKey T l2 w2).length := by
        simp only [wordKey, List.length_map, List.length_range]
        omega
      rw [if_pos hc1, hd1, List.drop_eq_getElem_cons hd2]
      rfl
    · rw [if_neg hc1]
      by_cases hc2 : T.chars l2 w2 < ch
      · have hd2 : (wordKey T l2 w2).drop (ch - 1) = [] := by
          apply List.drop_eq_nil_of_le
          simp only [wordKey, List.length_map, List.length_range]
          omega
        rw [if_pos hc2, hd2, lexLt_nil_right]
      · rw [if_neg hc2]
        have hb1 : ch ≤ T.chars l1 w1 := by omega
        have hb2 : ch ≤ T.chars l2 w2 := by omega
        have hd1 : ch - 1 < (wordKey T l1 w1).length := by
          simp only [wordKey, List.length_map, List.length_range]; omega
        have hd2 : ch - 1 < (wordKey T l2 w2).length := by
          simp only [wordKey, List.length_map, List.length_range]; omega
        rw [List.drop_eq_getElem_cons hd1, List.drop_eq_getElem_cons hd2]
        have hch : ch - 1 + 1 = ch := by omega
        have he1 : (wordKey T l1 w1)[ch - 1] = normalizeChar (T.char l1 w1 ch) := by
          simp only [wordKey, List.getElem_map, List.getElem_range, hch]
        have he2 : (wordKey T l2 w2)[ch - 1] = normalizeChar (T.char l2 w2 ch) := by
          simp only [wordKey, List.getElem_map, List.getElem_range, hch]
        rw [lexLt, he1, he2]
        have harith : ch - 1 + 1 = ch + 1 - 1 := by omega
        rw [ih (ch + 1) (by omega) (by omega)] at *
        simp only [harith]

theorem wordsLess_eq_lexLt (T : LineHolder) (l1 w1 l2 w2 : Nat) :
    wordsLess T l1 w1 l2 w2 = lexLt (wordKey T l1 w1) (wordKey T l2 w2) := by
  have h := wordsLessFrom_eq_lexLt T l1 w1 l2 w2 (T.chars l2 w2 + 1) 1 (by omega) (by omega)
  simpa [wordsLess] using h

theorem linesLessFrom_eq_lexLtK (T : LineHolder) (l1 l2 : Nat) :
    ∀ (fuel w : Nat), 1 ≤ w → T.words l2 + 1 ≤ w + fuel →
      linesLessFrom T l1 l2 w fuel
        = lexLtK ((lineKey T l1).drop (w - 1)) ((lineKey T l2).drop (w - 1)) := by
  intro fuel
  induction fuel with
  | zero =>
    intro w h1 h2
    have hd : (lineKey T l2).drop (w - 1) = [] := by
      apply List.drop_eq_nil_of_le
      simp only [lineKey, List.length_map, List.length_range]
      omega
    rw [hd]
    cases hx : (lineKey T l1).drop (w - 1) <;> rfl
  | succ fuel ih =>
    intro w h1 h2
    rw [linesLessFrom]
    by_cases hc1 : T.words l1 < w ∧ w ≤ T.words l2
    · have hd1 : (lineKey T l1).drop (w - 1) = [] := by
        apply List.drop_eq_nil_of_le
        simp only [lineKey, List.length_map, List.length_range]
        omega
      have hd2 : w - 1 < (lineKey T l2).length := by
        simp only [lineKey, List.length_map, List.length_range]
        omega
      rw [if_pos hc1, hd1, List.drop_eq_getElem_cons hd2]
      rfl
    · rw [if_neg hc1]
      by_cases hc2 : T.words l2 < w
      · have hd2 : (lineKey T l2).drop (w - 1) = [] := by
          apply List.drop_eq_nil_of_le
          simp only [lineKey, List.length_map, List.length_range]
          omega
        rw [if_pos hc2, hd2]
        cases hx : (lineKey T l1).drop (w - 1) <;> rfl
      · rw [if_neg hc2]
        have hd1 : w - 1 < (lineKey T l1).length := by
          simp only [lineKey, List.length_map, List.length_range]; omega
        have hd2 : w - 1 < (lineKey T l2).length := by
          simp only [lineKey, List.length_map, List.length_range]; omega
        rw [List.drop_eq_getElem_cons hd1, List.drop_eq_getElem_cons hd2]
        have hw : w - 1 + 1 = w := by omega
        have he1 : (lineKey T l1)[w - 1] = wordKey T l1 w := by
          simp only [lineKey, List.getElem_map, List.getElem_range, hw]
        have he2 : (lineKey T l2)[w - 1] = wordKey T l2 w := by
          simp only [lineKey, List.getElem_map, List.getElem_range, hw]
        rw [lexLtK, he1, he2, ← wordsLess_eq_lexLt, ← wordsLess_eq_lexLt]
        have harith : w - 1 + 1 = w + 1 - 1 := by omega
        rw [ih (w + 1) (by omega) (by omega)]
        simp only [harith]

theorem linesLess_eq_lexLtK (T : LineHolder) (l1 l2 : Nat) :
    linesLess T l1 l2 = lexLtK (lineKey T l1) (lineKey T l2) := by
  have h := linesLessFrom_eq_lexLtK T l1 l2 (T.words l2 + 1) 1 (by omega) (by omega)
  simpa [linesLess] using h

/-! ## The comparator: order properties -/

theorem lexLt_irrefl : ∀ a : List Nat, lexLt a a = false := by
  intro a
  induction a with
  | nil => rfl
  | cons x xs ih => simp [lexLt, ih]

theorem lexLt_asymm : ∀ a b : List Nat, lexLt a b = true → lexLt b a = false := by
  intro a
  induction a with
  | nil =>
    intro b _
    exact lexLt_nil_right b
  | cons x xs ih =>
    intro b hab
    cases b with
    | nil => simp [lexLt_nil_right] at hab
    | cons y ys =>
      simp only [lexLt] at hab ⊢
      rcases Nat.lt_trichotomy x y with h | h | h
      · simp [h, Nat.lt_asymm h, Nat.ne_of_lt h]
      · subst h
        simp only [Nat.lt_irrefl, if_false] at hab ⊢
        exact ih ys hab
      · simp [h, Nat.lt_asymm h] at hab

theorem lexLt_trans : ∀ a b c : List Nat,
    lexLt a b = true → lexLt b c = true → lexLt a c = true := by
  intro a
  induction a with
  | nil =>
    intro b c hab hbc
    cases c with
    | nil =>
      rw [lexLt_nil_right] at hbc
      exact absurd hbc (by simp)
    | cons z zs => rfl
  | cons x xs ih =>
    intro b c hab hbc
    cases b with
    | nil => simp [lexLt_nil_right] at hab
    | cons y ys =>
      cases c with
      | nil => simp [lexLt_nil_right] at hbc
      | cons z zs =>
        simp only [lexLt] at hab hbc ⊢
        rcases Nat.lt_trichotomy x y with h1 | h1 | h1
        · rcases Nat.lt_trichotomy y z with h2 | h2 | h2
          · simp [Nat.lt_trans h1 h2]
          · subst h2; simp [h1]
          · simp [h2, Nat.lt_asymm h2] at hbc
        · subst h1
          simp only [Nat.lt_irrefl, if_false] at hab
          rcases Nat.lt_trichotomy x z with h2 | h2 | h2
          · simp [h2]
          · subst h2
            simp only [Nat.lt_irrefl, if_false] at hbc ⊢
            exact ih ys zs hab hbc
          · simp [h2, Nat.lt_asymm h2] at hbc
        · simp [h1, Nat.lt_asymm h1] at hab

theorem lexLt_eq_of_both_false : ∀ a b : List Nat,
    lexLt a b = false → lexLt b a = false → a = b := by
  intro a
  induction a with
  | nil =>
    intro b hab _
    cases b with
    | nil => rfl
    | cons y ys => simp [lexLt] at hab
  | cons x xs ih =>
    intro b hab hba
    cases b with
    | nil => simp [lexLt] at hba
    | cons y ys =>
      simp only [lexLt] at hab hba
      rcases Nat.lt_trichotomy x y with h | h | h
      · simp [h] at hab
      · subst h
        simp only [Nat.lt_irrefl, if_false] at hab hba
        rw [ih ys hab hba]
      · simp [h, Nat.lt_asymm h] at hba

theorem lexLtK_nil_right (a : List (List Nat)) : lexLtK a [] = false := by
  cases a <;> rfl

theorem lexLtK_irrefl : ∀ a : List (List Nat), lexLtK a a = false := by
  intro a
  induction a with
  | nil => rfl
  | cons x xs ih => simp [lexLtK, lexLt_irrefl, ih]

theorem lexLtK_asymm : ∀ a b : List (List Nat), lexLtK a b = true → lexLtK b a = false := by
  intro a
  induction a with
  | nil =>
    intro b _
    exact lexLtK_nil_right b
  | cons x xs ih =>
    intro b hab
    cases b with
    | nil => simp [lexLtK_nil_right] at hab
    | cons y ys =>
      simp only [lexLtK] at hab ⊢
      by_cases h1 : lexLt x y = true
      · simp [h1, lexLt_asymm x y h1]
      · by_cases h2 : lexLt y x = true
        · simp [h1, h2] at hab
        · simp only [Bool.not_eq_true] at h1 h2
          simp only [h1, h2, if_false] at hab ⊢
          exact ih ys hab

theorem lexLtK_trans : ∀ a b c : List (List Nat),
    lexLtK a b = true → lexLtK b c = true → lexLtK a c = true := by
  intro a
  induction a with
  | nil =>
    intro b c hab hbc
    cases c with
    | nil =>
      rw [lexLtK_nil_right] at hbc
      exact absurd hbc (by simp)
    | cons z zs => rfl
  | cons x xs ih =>
    intro b c hab hbc
    cases b with
    | nil => simp [lexLtK_nil_right] at hab
    | cons y ys =>
      cases c with
      | nil => simp [lexLtK_nil_right] at hbc
      | cons z zs =>
        simp only [lexLtK] at hab hbc ⊢
        by_cases h1 : lexLt x y = true
        · by_cases h2 : lexLt y z = true
          · simp [lexLt_trans x y z h1 h2]
          · by_cases h3 : lexLt z y = true
            · simp [h2, h3] at hbc
            · simp only [Bool.not_eq_true] at h2 h3
              have := lexLt_eq_of_both_false y z h2 h3
              subst this
              simp [h1]
        · by_cases h1' : lexLt y x = true
          · simp [h1, h1'] at hab
          · simp only [Bool.not_eq_true] at h1 h1'
            have := lexLt_eq_of_both_false x y h1 h1'
            subst this
            simp only [lexLt_irrefl, if_false] at hab hbc ⊢
            by_cases h2 : lexLt x z = true
            · simp [h2]
            · by_cases h3 : lexLt z x = true
              · simp [h2, h3] at hbc
              · simp only [Bool.not_eq_true] at h2 h3
                simp only [h2, h3, if_false] at hbc ⊢
                exact ih ys zs hab hbc

theorem linesLess_irrefl (T : LineHolder) (a : Nat) : linesLess T a a = false := by
  rw [linesLess_eq_lexLtK]
  exact lexLtK_irrefl _

theorem linesLess_trans (T : LineHolder) (a b c : Nat)
    (hab : linesLess T a b = true) (hbc : linesLess T b c = true) :
    linesLess T a c = true := by
  rw [linesLess_eq_lexLtK] at *
  exact lexLtK_trans _ _ _ hab hbc

theorem linesLess_asymm (T : LineHolder) (a b : Nat)
    (hab : linesLess T a b = true) : linesLess T b a = false := by
  rw [linesLess_eq_lexLtK] at *
  exact lexLtK_asymm _ _ hab

/-- C5: `linesLess` is a strict order on lines of any `LineHolder`
(stated for all line indices, valid or not, since all four read
operations are total in the embedding): irreflexive, transitive, and
asymmetric (`linesLess(a,b)` implies `!linesLess(b,a)`). -/
theorem linesLess_strictOrder (T : LineHolder) (a b c : Nat) :
    linesLess T a a = false
    ∧ (linesLess T a b = true → linesLess T b c = true → linesLess T a c = true)
    ∧ (linesLess T a b = true → linesLess T b a = false) :=
  ⟨linesLess_irrefl T a,
   fun hab hbc => linesLess_trans T a b c hab hbc,
   fun hab => linesLess_asymm T a b hab⟩

/-- Witness for C5 at the concrete document with lines `b`, `a`, `c`:
transitivity applied to `linesLess 2 1` (the line `a` is below line `b`)
and `linesLess 1 3` gives `linesLess 2 3`. -/
theorem linesLess_strictOrder_witness :
    linesLess (lineStorage stBAC) 2 3 = true :=
  (linesLess_strictOrder (lineStorage stBAC) 2 1 3).2.1 (by decide) (by decide)

/-- C6: the rank order of `normalizeChar`: for each letter the uppercase
form ranks immediately below the lowercase form, lowercase ranks below
the next letter's uppercase (so `A < a < B < b < …` alphabetically,
case as tiebreak), every non-letter byte has rank `0`, which is the
least rank, and in particular space and the digit `5` both rank `0`. -/
theorem normalizeChar_rank_order :
    (∀ n : Nat, n < 26 → normalizeChar (65 + n) < normalizeChar (97 + n))
    ∧ (∀ n : Nat, n + 1 < 26 → normalizeChar (97 + n) < normalizeChar (65 + (n + 1)))
    ∧ (∀ c : Nat, ¬(65 ≤ c ∧ c ≤ 90) → ¬(97 ≤ c ∧ c ≤ 122) → normalizeChar c = 0)
    ∧ (∀ c : Nat, normalizeChar 32 ≤ normalizeChar c)
    ∧ normalizeChar 32 = 0 ∧ normalizeChar 53 = 0 := by
  refine ⟨?_, ?_, ?_, ?_, rfl, rfl⟩
  · intro n h
    simp only [normalizeChar]
    rw [if_pos (by omega), if_neg (by omega), if_pos (by omega)]
    omega
  · intro n h
    simp only [normalizeChar]
    rw [if_neg (by omega), if_pos (by omega), if_pos (by omega)]
    omega
  · intro c h1 h2
    simp only [normalizeChar, if_neg h1, if_neg h2]
  · intro c
    simp [normalizeChar]

/-- Witness for C6: the first link of the chain, `rank('A') < rank('a')`. -/
theorem normalizeChar_rank_order_witness :
    normalizeChar (65 + 0) < normalizeChar (97 + 0) :=
  normalizeChar_rank_order.1 0 (by decide)

/-- C10: `normalizeChar 'A' = 0`, equal to the rank of every non-letter
byte (space, digit `5`, `!`), and a word consisting of `A` compares
equal under `wordsLess` (in both directions) to words consisting of a
space, a digit, or punctuation. -/
theorem rank_A_collides_nonletters :
    normalizeChar 65 = 0 ∧ normalizeChar 32 = 0 ∧ normalizeChar 53 = 0 ∧ normalizeChar 33 = 0
    ∧ wordsLess (lineStorage stPunct) 1 1 2 1 = false
    ∧ wordsLess (lineStorage stPunct) 2 1 1 1 = false
    ∧ wordsLess (lineStorage stPunct) 1 1 3 1 = false
    ∧ wordsLess (lineStorage stPunct) 3 1 1 1 = false
    ∧ wordsLess (lineStorage stPunct) 1 1 4 1 = false
    ∧ wordsLess (lineStorage stPunct) 4 1 1 1 = false := by
  decide

/-! ## The circular shifter -/

theorem newShifts_length (T : LineHolder) :
    (newShifts T).length = ((List.range T.lines).map (fun l0 => T.words (l0 + 1))).sum := by
  rw [newShifts, List.length_flatMap]
  exact congrArg List.sum (List.map_congr_left (fun a _ => by simp))

/-- C9: the shift view's line count is the sum, over the wrapped text's
lines in document order, of each line's word count. -/
theorem shifter_lineCount (T : LineHolder) :
    (newCircularShifter T).lines
      = ((List.range T.lines).map (fun l0 => T.words (l0 + 1))).sum :=
  newShifts_length T

/-- The shift-table entry at offset `k - 1` inside line `l`'s block is
the pair `(l, k)`. -/
theorem newShifts_getD (T : LineHolder) (l k : Nat)
    (h1 : 1 ≤ l) (h2 : l ≤ T.lines) (h3 : 1 ≤ k) (h4 : k ≤ T.words l) :
    (newShifts T).getD (sumWords T l + (k - 1)) ⟨0, 0⟩ = ⟨l, k⟩ := by
  have hsplit : T.lines = (l - 1) + (T.lines - (l - 1)) := by omega
  rw [newShifts, hsplit, List.range_add, List.flatMap_append]
  have hlen : ((List.range (l - 1)).flatMap (fun l0 =>
      (List.range (T.words (l0 + 1))).map (fun w0 => (⟨l0 + 1, w0 + 1⟩ : Shift)))).length
      = sumWords T l := by
    rw [List.length_flatMap, sumWords]
    exact congrArg List.sum (List.map_congr_left (fun a _ => by simp))
  rw [getD_append_sub _ _ _ _ (by omega), hlen]
  have hsub : sumWords T l + (k - 1) - sumWords T l = k - 1 := by omega
  rw [hsub, List.flatMap_map]
  have hm : T.lines - (l - 1) = (T.lines - l) + 1 := by omega
  rw [hm, List.range_succ_eq_map, List.flatMap_cons]
  have hl : l - 1 + 0 + 1 = l := by omega
  rw [hl]
  rw [getD_append_left _ _ _ _ (by simp; omega)]
  rw [getD_map_range _ _ _ _ (by omega)]
  have hk : k - 1 + 1 = k := by omega
  rw [hk]

/-- C1 counterexample: on the document `ab cd`, output line 1 of the
shifter is the rotation with `startWord = 1`, yet its word 1 does not
read word 1 of the source line (it reads word 2, byte `c`). -/
theorem shifter_startWord_claim_false :
    (newShifts (lineStorage stAB)).getD 0 ⟨0, 0⟩ = ⟨1, 1⟩
    ∧ ¬((newCircularShifter (lineStorage stAB)).char 1 1 1
        = (lineStorage stAB).char 1 1 1) := by
  decide

/-- C1 (amended): for every line `l` and valid `k`, the rotation stored
with `startWord = k` (output line `sumWords T l + k` of the shifter)
reads, at word 1, word `k + 1` of the source line (word `1` when
`k` is the line's word count), and the shifter's address translation
`rotWord k` is a bijection on the word indices `1..wordCount` of the
line. -/
theorem shifter_word1_rotation (T : LineHolder) (l k c : Nat)
    (h1 : 1 ≤ l) (h2 : l ≤ T.lines) (h3 : 1 ≤ k) (h4 : k ≤ T.words l) :
    (newCircularShifter T).char (sumWords T l + k) 1 c
      = T.char l (if k = T.words l then 1 else k + 1) c
    ∧ Set.BijOn (rotWord k (T.words l)) (Set.Icc 1 (T.words l)) (Set.Icc 1 (T.words l)) := by
  constructor
  · have hidx : sumWords T l + k - 1 = sumWords T l + (k - 1) := by omega
    have hgd := newShifts_getD T l k h1 h2 h3 h4
    simp only [newCircularShifter, hidx, hgd]
    by_cases hk : k = T.words l
    · have e1 : 1 + k > T.words l := by omega
      have e2 : 1 + k - T.words l = 1 := by omega
      rw [if_pos e1, e2, if_pos hk]
    · have e1 : ¬(1 + k > T.words l) := by omega
      have e2 : 1 + k = k + 1 := by omega
      rw [if_neg e1, e2, if_neg hk]
  · refine ⟨?_, ?_, ?_⟩
    · intro w hw
      simp only [Set.mem_Icc] at hw ⊢
      unfold rotWord
      split <;> omega
    · intro w hw w' hw' heq
      simp only [Set.mem_Icc] at hw hw'
      unfold rotWord at heq
      split at heq <;> split at heq <;> omega
    · intro v hv
      simp only [Set.mem_Icc] at hv
      refine ⟨if v > k then v - k else v + T.words l - k, ?_, ?_⟩
      · simp only [Set.mem_Icc]
        split <;> omega
      · unfold rotWord
        split <;> split <;> omega

/-- Witness for C1 (amended) at the document `ab cd`, line 1,
`startWord = 1`: word 1 of that rotation is word 2 of the source. -/
theorem shifter_word1_rotation_witness :
    (newCircularShifter (lineStorage stAB)).char (sumWords (lineStorage stAB) 1 + 1) 1 1
      = (lineStorage stAB).char 1 (if 1 = (lineStorage stAB).words 1 then 1 else 1 + 1) 1
    ∧ Set.BijOn (rotWord 1 ((lineStorage stAB).words 1))
        (Set.Icc 1 ((lineStorage stAB).words 1)) (Set.Icc 1 ((lineStorage stAB).words 1)) :=
  shifter_word1_rotation (lineStorage stAB) 1 1 1 (by decide) (by decide) (by decide) (by decide)

/-! ## `setWord`: evaluation on every class of triple -/

theorem goIdx_ok {α : Type} (l : List α) (i : Int) (d : α) (st : Storage)
    (h0 : 0 ≤ i) (h1 : i < (l.length : Int)) : goIdx l i d st = .ok (l.getD i.toNat d) := by
  simp only [goIdx, if_pos (And.intro h0 h1)]

theorem goIdx_err {α : Type} (l : List α) (i : Int) (d : α) (st : Storage)
    (h : ¬(0 ≤ i ∧ i < (l.length : Int))) :
    goIdx l i d st = .error ("runtime error: index out of range", st) := by
  simp only [goIdx, if_neg h]

theorem set_append_len {α : Type} (l : List α) (x y : α) :
    (l ++ [x]).set l.length y = l ++ [y] := by
  induction l with
  | nil => rfl
  | cons a t ih => simp [ih]

theorem getD_append_len {α : Type} (l : List α) (x : α) (d : α) :
    (l ++ [x]).getD l.length d = x := by
  rw [getD_append_sub _ _ _ _ (Nat.le_refl _)]
  simp

/-- Leaf A: a line index neither the last line nor just past it. -/
theorem setWord_err_line (s : Storage) (l w c : Int) (v : Nat)
    (hA : l < (s.length : Int) ∨ l > (s.length : Int) + 1) :
    setWord s l w c v = .error ("Line not last or just past last (ERLSBL)", s) := by
  simp only [setWord, if_pos hA]

/-- Leaf B: `line = lines` on an empty storage indexes line `-1`. -/
theorem setWord_err_line0 (s : Storage) (w c : Int) (v : Nat) (h0 : s.length = 0) :
    setWord s 0 w c v = .error ("runtime error: index out of range", s) := by
  have f1 : ((0 : Int) < (s.length : Int) ∨ (0 : Int) > (s.length : Int) + 1) = False :=
    eq_false (by omega)
  have f2 : ((0 : Int) = (s.length : Int)) = True := eq_true (by omega)
  simp only [setWord, f1, f2, if_true, if_false,
    goIdx_err s ((0 : Int) - 1) [] s (by omega)]

/-- Leaf C: `line = lines ≥ 1` but the word index is neither the last
word nor just past it. -/
theorem setWord_err_word (s : Storage) (w c : Int) (v : Nat) (hL : 1 ≤ s.length)
    (hB : w < (wordsOf s : Int) ∨ w > (wordsOf s : Int) + 1) :
    setWord s (s.length : Int) w c v
      = .error ("Word not last or just past last (ERLSBW)", s) := by
  have ht : ((s.length : Int) - 1).toNat = s.length - 1 := by omega
  have f1 : ((s.length : Int) < (s.length : Int) ∨ (s.length : Int) > (s.length : Int) + 1) = False :=
    eq_false (by omega)
  have f2 : ((s.length : Int) = (s.length : Int)) = True := eq_true rfl
  have hW' : (s.getD (s.length - 1) []).length = wordsOf s := rfl
  have f3 : (w < (wordsOf s : Int) ∨ w > (wordsOf s : Int) + 1) = True := eq_true hB
  simp only [setWord, f1, f2, if_true, if_false,
    goIdx_ok s ((s.length : Int) - 1) [] s (by omega) (by omega), ht, hW', f3]

/-- Leaf D: `line = lines ≥ 1`, `word = words = 0` indexes word `-1`. -/
theorem setWord_err_word0 (s : Storage) (c : Int) (v : Nat) (hL : 1 ≤ s.length)
    (hW : wordsOf s = 0) :
    setWord s (s.length : Int) 0 c v = .error ("runtime error: index out of range", s) := by
  have ht : ((s.length : Int) - 1).toNat = s.length - 1 := by omega
  have f1 : ((s.length : Int) < (s.length : Int) ∨ (s.length : Int) > (s.length : Int) + 1) = False :=
    eq_false (by omega)
  have f2 : ((s.length : Int) = (s.length : Int)) = True := eq_true rfl
  have hW' : (s.getD (s.length - 1) []).length = wordsOf s := rfl
  have f3 : ((0 : Int) < (wordsOf s : Int) ∨ (0 : Int) > (wordsOf s : Int) + 1) = False :=
    eq_false (by omega)
  have f4 : ((0 : Int) = (wordsOf s : Int)) = True := eq_true (by omega)
  simp only [setWord, f1, f2, if_true, if_false, true_and, false_and,
    goIdx_ok s ((s.length : Int) - 1) [] s (by omega) (by omega), ht, hW', f3, f4,
    goIdx_err (s.getD (s.length - 1) []) ((0 : Int) - 1) [] s (by omega)]

/-- Leaf E: `line = lines ≥ 1`, `word = words ≥ 1`, bad char index. -/
theorem setWord_err_char_last (s : Storage) (c : Int) (v : Nat) (hL : 1 ≤ s.length)
    (hW : 1 ≤ wordsOf s) (hc : c ≠ (charsOf s : Int) + 1) :
    setWord s (s.length : Int) (wordsOf s : Int) c v
      = .error ("Char not just past last (ERLSBC)", s) := by
  have ht : ((s.length : Int) - 1).toNat = s.length - 1 := by omega
  have ht2 : ((wordsOf s : Int) - 1).toNat = wordsOf s - 1 := by omega
  have f1 : ((s.length : Int) < (s.length : Int) ∨ (s.length : Int) > (s.length : Int) + 1) = False :=
    eq_false (by omega)
  have f2 : ((s.length : Int) = (s.length : Int)) = True := eq_true rfl
  have hW' : (s.getD (s.length - 1) []).length = wordsOf s := rfl
  have f3 : ((wordsOf s : Int) < (wordsOf s : Int) ∨ (wordsOf s : Int) > (wordsOf s : Int) + 1) = False :=
    eq_false (by omega)
  have f4 : ((wordsOf s : Int) = (wordsOf s : Int)) = True := eq_true rfl
  have hC : ((s.getD (s.length - 1) []).getD (wordsOf s - 1) []).length = charsOf s := rfl
  have f5 : (c ≠ (charsOf s : Int) + 1) = True := eq_true hc
  simp only [setWord, f1, f2, if_true, if_false, true_and, false_and,
    goIdx_ok s ((s.length : Int) - 1) [] s (by omega) (by omega), ht, hW', f3, f4,
    goIdx_ok (s.getD (s.length - 1) []) ((wordsOf s : Int) - 1) [] s (by omega)
      (by rw [hW']; omega), ht2, hC, f5]

/-- Leaf F: appending the next character of the last word of the last
line succeeds. -/
theorem setWord_ok_extend (s : Storage) (v : Nat) (hL : 1 ≤ s.length) (hW : 1 ≤ wordsOf s) :
    setWord s (s.length : Int) (wordsOf s : Int) ((charsOf s : Int) + 1) v
      = .ok (s.set (s.length - 1) ((s.getD (s.length - 1) []).set (wordsOf s - 1)
          (((s.getD (s.length - 1) []).getD (wordsOf s - 1) []) ++ [v]))) := by
  have ht : ((s.length : Int) - 1).toNat = s.length - 1 := by omega
  have ht2 : ((wordsOf s : Int) - 1).toNat = wordsOf s - 1 := by omega
  have f1 : ((s.length : Int) < (s.length : Int) ∨ (s.length : Int) > (s.length : Int) + 1) = False :=
    eq_false (by omega)
  have f2 : ((s.length : Int) = (s.length : Int)) = True := eq_true rfl
  have hW' : (s.getD (s.length - 1) []).length = wordsOf s := rfl
  have f3 : ((wordsOf s : Int) < (wordsOf s : Int) ∨ (wordsOf s : Int) > (wordsOf s : Int) + 1) = False :=
    eq_false (by omega)
  have f4 : ((wordsOf s : Int) = (wordsOf s : Int)) = True := eq_true rfl
  have hC : ((s.getD (s.length - 1) []).getD (wordsOf s - 1) []).length = charsOf s := rfl
  have f5 : ((charsOf s : Int) + 1 ≠ (charsOf s : Int) + 1) = False := eq_false (by omega)
  have f6 : ((s.length : Int) = (s.length : Int) + 1) = False := eq_false (by omega)
  have f7 : ((wordsOf s : Int) = (wordsOf s : Int) + 1) = False := eq_false (by omega)
  simp only [setWord, f1, f2, if_true, if_false, true_and, false_and,
    goIdx_ok s ((s.length : Int) - 1) [] s (by omega) (by omega), ht, hW', f3, f4,
    goIdx_ok (s.getD (s.length - 1) []) ((wordsOf s : Int) - 1) [] s (by omega)
      (by rw [hW']; omega), ht2, hC, f5, f6, f7]

/-- Leaf G: `line = lines ≥ 1`, `word = words + 1`, bad char index. -/
theorem setWord_err_char_new_word (s : Storage) (c : Int) (v : Nat) (hL : 1 ≤ s.length)
    (hc : c ≠ 1) :
    setWord s (s.length : Int) ((wordsOf s : Int) + 1) c v
      = .error ("Char not just past last (ERLSBC)", s) := by
  have ht : ((s.length : Int) - 1).toNat = s.length - 1 := by omega
  have f1 : ((s.length : Int) < (s.length : Int) ∨ (s.length : Int) > (s.length : Int) + 1) = False :=
    eq_false (by omega)
  have f2 : ((s.length : Int) = (s.length : Int)) = True := eq_true rfl
  have hW' : (s.getD (s.length - 1) []).length = wordsOf s := rfl
  have f3 : ((wordsOf s : Int) + 1 < (wordsOf s : Int)
      ∨ (wordsOf s : Int) + 1 > (wordsOf s : Int) + 1) = False := eq_false (by omega)
  have f4 : ((wordsOf s : Int) + 1 = (wordsOf s : Int)) = False := eq_false (by omega)
  have f5 : (c ≠ (0 : Int) + 1) = True := eq_true (by omega)
  simp only [setWord, f1, f2, if_true, if_false, true_and, false_and,
    goIdx_ok s ((s.length : Int) - 1) [] s (by omega) (by omega), ht, hW', f3, f4, f5]

/-- Leaf H: appending the first character of a new word on the last line
succeeds. -/
theorem setWord_ok_new_word (s : Storage) (v : Nat) (hL : 1 ≤ s.length) :
    setWord s (s.length : Int) ((wordsOf s : Int) + 1) 1 v
      = .ok (s.set (s.length - 1) ((s.getD (s.length - 1) []) ++ [[v]])) := by
  have ht : ((s.length : Int) - 1).toNat = s.length - 1 := by omega
  have f1 : ((s.length : Int) < (s.length : Int) ∨ (s.length : Int) > (s.length : Int) + 1) = False :=
    eq_false (by omega)
  have f2 : ((s.length : Int) = (s.length : Int)) = True := eq_true rfl
  have hW' : (s.getD (s.length - 1) []).length = wordsOf s := rfl
  have f3 : ((wordsOf s : Int) + 1 < (wordsOf s : Int)
      ∨ (wordsOf s : Int) + 1 > (wordsOf s : Int) + 1) = False := eq_false (by omega)
  have f4 : ((wordsOf s : Int) + 1 = (wordsOf s : Int)) = False := eq_false (by omega)
  have f5 : ((1 : Int) ≠ (0 : Int) + 1) = False := eq_false (by omega)
  have f6 : ((s.length : Int) = (s.length : Int) + 1) = False := eq_false (by omega)
  have f7 : ((wordsOf s : Int) + 1 = (wordsOf s : Int) + 1) = True := eq_true rfl
  have hlen2 : ((s.set (s.length - 1) ((s.getD (s.length - 1) []) ++ [[]])).length : Int)
      = (s.length : Int) := by simp
  have e1 : (s.set (s.length - 1) ((s.getD (s.length - 1) []) ++ [[]])).getD (s.length - 1) []
      = (s.getD (s.length - 1) []) ++ [[]] := getD_set_self _ _ _ _ (by omega)
  have hlen3 : (((s.getD (s.length - 1) []) ++ [[]]).length : Int) = (wordsOf s : Int) + 1 := by
    simp only [List.length_append, List.length_cons, List.length_nil, hW']
    omega
  have ht3 : ((wordsOf s : Int) + 1 - 1).toNat = wordsOf s := by omega
  have e2 : ((s.getD (s.length - 1) []) ++ [[]]).getD (wordsOf s) [] = [] := by
    rw [← hW']
    exact getD_append_len _ _ _
  have e3 : ((s.getD (s.length - 1) []) ++ [[]]).set (wordsOf s) [v]
      = (s.getD (s.length - 1) []) ++ [[v]] := by
    rw [← hW', set_append_len]
  simp only [setWord, f1, f2, if_true, if_false, true_and, false_and,
    goIdx_ok s ((s.length : Int) - 1) [] s (by omega) (by omega), ht, hW', f3, f4, f5, f6, f7,
    goIdx_ok (s.set (s.length - 1) ((s.getD (s.length - 1) []) ++ [[]]))
      ((s.length : Int) - 1) [] _ (by omega) (by rw [hlen2]; omega), e1,
    goIdx_ok ((s.getD (s.length - 1) []) ++ [[]])
      ((wordsOf s : Int) + 1 - 1) [] _ (by omega) (by rw [hlen3]; omega), ht3, e2, e3,
    List.set_set, List.nil_append]

/-- Leaf I: `line = lines + 1` but the word index is not `0` or `1`. -/
theorem setWord_err_word_new_line (s : Storage) (w c : Int) (v : Nat)
    (hB : w < 0 ∨ w > 1) :
    setWord s ((s.length : Int) + 1) w c v
      = .error ("Word not last or just past last (ERLSBW)", s) := by
  have f1 : ((s.length : Int) + 1 < (s.length : Int)
      ∨ (s.length : Int) + 1 > (s.length : Int) + 1) = False := eq_false (by omega)
  have f2 : ((s.length : Int) + 1 = (s.length : Int)) = False := eq_false (by omega)
  have f3 : (w < (0 : Int) ∨ w > (0 : Int) + 1) = True := eq_true (by omega)
  simp only [setWord, f1, f2, if_true, if_false, true_and, false_and, f3]

/-- Leaves J and L: `line = lines + 1`, `word` is `0` or `1`, bad char. -/
theorem setWord_err_char_new_line (s : Storage) (w c : Int) (v : Nat)
    (hw : w = 0 ∨ w = 1) (hc : c ≠ 1) :
    setWord s ((s.length : Int) + 1) w c v
      = .error ("Char not just past last (ERLSBC)", s) := by
  have f1 : ((s.length : Int) + 1 < (s.length : Int)
      ∨ (s.length : Int) + 1 > (s.length : Int) + 1) = False := eq_false (by omega)
  have f2 : ((s.length : Int) + 1 = (s.length : Int)) = False := eq_false (by omega)
  have f3 : (w < (0 : Int) ∨ w > (0 : Int) + 1) = False := eq_false (by omega)
  have f4 : (c ≠ (0 : Int) + 1) = True := eq_true (by omega)
  simp only [setWord, f1, f2, if_true, if_false, true_and, false_and, f3, f4]

/-- Leaf K: the mutating failure.  `line = lines + 1`, `word = 0`,
`char = 1` passes all three checks, appends a new empty line, and only
then aborts indexing word `-1` of that line; the new line stays. -/
theorem setWord_err_word0_new_line (s : Storage) (v : Nat) :
    setWord s ((s.length : Int) + 1) 0 1 v
      = .error ("runtime error: index out of range", s ++ [[]]) := by
  have f1 : ((s.length : Int) + 1 < (s.length : Int)
      ∨ (s.length : Int) + 1 > (s.length : Int) + 1) = False := eq_false (by omega)
  have f2 : ((s.length : Int) + 1 = (s.length : Int)) = False := eq_false (by omega)
  have f3 : ((0 : Int) < (0 : Int) ∨ (0 : Int) > (0 : Int) + 1) = False := eq_false (by omega)
  have f4 : ((1 : Int) ≠ (0 : Int) + 1) = False := eq_false (by omega)
  have f5 : ((s.length : Int) + 1 = (s.length : Int) + 1) = True := eq_true rfl
  have f6 : ((0 : Int) = (0 : Int) + 1) = False := eq_false (by omega)
  have ht : ((s.length : Int) + 1 - 1).toNat = s.length := by omega
  have e1 : (s ++ [[]]).getD s.length [] = ([] : List (List Nat)) := getD_append_len _ _ _
  simp only [setWord, f1, f2, if_true, if_false, true_and, false_and, f3, f4, f5, f6,
    goIdx_ok (s ++ ([[]] : Storage)) ((s.length : Int) + 1 - 1) [] _ (by omega) (by simp), ht, e1,
    goIdx_err ([] : List (List Nat)) ((0 : Int) - 1) [] _ (by omega)]

/-- Leaf M: appending the first character of the first word of a new
line succeeds. -/
theorem setWord_ok_new_line (s : Storage) (v : Nat) :
    setWord s ((s.length : Int) + 1) 1 1 v = .ok (s ++ [[[v]]]) := by
  have h1 : ¬(((s.length : Int) + 1) < (s.length : Int)
      ∨ ((s.length : Int) + 1) > (s.length : Int) + 1) := by omega
  have h2 : ¬((s.length : Int) + 1 = (s.length : Int)) := by omega
  simp only [setWord, if_neg h1, if_neg h2]
  norm_num
  rw [goIdx_ok _ _ _ _ (by omega) (by simp)]
  norm_num
  rw [goIdx_ok _ _ _ _ (by omega) (by simp)]
  norm_num

/-! ## `setWord`: the full characterization (C8) -/

/-- C8 (amended): `setWord` succeeds exactly on the three
position-following triples (`SetWordOk`), and on failure the stored
content is unchanged except for the triple
`(lines + 1, 0, 1)`, which appends a new empty line before aborting. -/
theorem setWord_characterization (s : Storage) (l w c : Int) (v : Nat) :
    (isOkE (setWord s l w c v) = true ↔ SetWordOk s l w c)
    ∧ (∀ msg st, setWord s l w c v = .error (msg, st) →
        st = if l = (s.length : Int) + 1 ∧ w = 0 ∧ c = 1 then s ++ [[]] else s) := by
  by_cases hA : l < (s.length : Int) ∨ l > (s.length : Int) + 1
  · have he := setWord_err_line s l w c v hA
    refine ⟨?_, ?_⟩
    · rw [he]
      exact iff_of_false (by simp [isOkE]) (by simp only [SetWordOk]; omega)
    intro msg st heq
    rw [he] at heq
    simp only [Except.error.injEq, Prod.mk.injEq] at heq
    rw [if_neg (by omega), ← heq.2]
  · rcases (by omega : l = (s.length : Int) ∨ l = (s.length : Int) + 1) with hl | hl
    · subst hl
      by_cases h0 : s.length = 0
      · have hz : (s.length : Int) = 0 := by omega
        rw [hz]
        have he := setWord_err_line0 s w c v h0
        refine ⟨?_, ?_⟩
        · rw [he]
          exact iff_of_false (by simp [isOkE]) (by simp only [SetWordOk]; omega)
        intro msg st heq
        rw [he] at heq
        simp only [Except.error.injEq, Prod.mk.injEq] at heq
        rw [if_neg (by omega), ← heq.2]
      · have hL : 1 ≤ s.length := by omega
        by_cases hB : w < (wordsOf s : Int) ∨ w > (wordsOf s : Int) + 1
        · have he := setWord_err_word s w c v hL hB
          refine ⟨?_, ?_⟩
          · rw [he]
            exact iff_of_false (by simp [isOkE]) (by simp only [SetWordOk]; omega)
          intro msg st heq
          rw [he] at heq
          simp only [Except.error.injEq, Prod.mk.injEq] at heq
          rw [if_neg (by omega), ← heq.2]
        · rcases (by omega : w = (wordsOf s : Int) ∨ w = (wordsOf s : Int) + 1) with hw | hw
          · subst hw
            by_cases hW0 : wordsOf s = 0
            · have hwz : (wordsOf s : Int) = 0 := by omega
              rw [hwz]
              have he := setWord_err_word0 s c v hL hW0
              refine ⟨?_, ?_⟩
              · rw [he]
                exact iff_of_false (by simp [isOkE]) (by simp only [SetWordOk]; omega)
              intro msg st heq
              rw [he] at heq
              simp only [Except.error.injEq, Prod.mk.injEq] at heq
              rw [if_neg (by omega), ← heq.2]
            · have hW : 1 ≤ wordsOf s := by omega
              by_cases hc : c = (charsOf s : Int) + 1
              · subst hc
                have he := setWord_ok_extend s v hL hW
                refine ⟨?_, ?_⟩
                · rw [he]
                  exact iff_of_true rfl (by simp only [SetWordOk, and_true, true_and]; omega)
                intro msg st heq
                rw [he] at heq
                exact absurd heq (by simp)
              · have he := setWord_err_char_last s c v hL hW hc
                refine ⟨?_, ?_⟩
                · rw [he]
                  exact iff_of_false (by simp [isOkE]) (by simp only [SetWordOk]; omega)
                intro msg st heq
                rw [he] at heq
                simp only [Except.error.injEq, Prod.mk.injEq] at heq
                rw [if_neg (by omega), ← heq.2]
          · subst hw
            by_cases hc : c = 1
            · subst hc
              have he := setWord_ok_new_word s v hL
              refine ⟨?_, ?_⟩
              · rw [he]
                exact iff_of_true rfl (by simp only [SetWordOk, and_true, true_and]; omega)
              intro msg st heq
              rw [he] at heq
              exact absurd heq (by simp)
            · have he := setWord_err_char_new_word s c v hL hc
              refine ⟨?_, ?_⟩
              · rw [he]
                exact iff_of_false (by simp [isOkE]) (by simp only [SetWordOk]; omega)
              intro msg st heq
              rw [he] at heq
              simp only [Except.error.injEq, Prod.mk.injEq] at heq
              rw [if_neg (by omega), ← heq.2]
    · subst hl
      by_cases hB : w < 0 ∨ w > 1
      · have he := setWord_err_word_new_line s w c v hB
        refine ⟨?_, ?_⟩
        · rw [he]
          exact iff_of_false (by simp [isOkE]) (by simp only [SetWordOk]; omega)
        intro msg st heq
        rw [he] at heq
        simp only [Except.error.injEq, Prod.mk.injEq] at heq
        rw [if_neg (by omega), ← heq.2]
      · by_cases hc : c = 1
        · subst hc
          rcases (by omega : w = 0 ∨ w = 1) with hw | hw
          · subst hw
            have he := setWord_err_word0_new_line s v
            refine ⟨?_, ?_⟩
            · rw [he]
              exact iff_of_false (by simp [isOkE]) (by simp only [SetWordOk]; omega)
            intro msg st heq
            rw [he] at heq
            simp only [Except.error.injEq, Prod.mk.injEq] at heq
            rw [if_pos (by omega), ← heq.2]
          · subst hw
            have he := setWord_ok_new_line s v
            refine ⟨?_, ?_⟩
            · rw [he]
              exact iff_of_true rfl (by simp [SetWordOk])
            intro msg st heq
            rw [he] at heq
            exact absurd heq (by simp)
        · have he := setWord_err_char_new_line s w c v (by omega) hc
          refine ⟨?_, ?_⟩
          · rw [he]
            exact iff_of_false (by simp [isOkE]) (by simp only [SetWordOk]; omega)
          intro msg st heq
          rw [he] at heq
          simp only [Except.error.injEq, Prod.mk.injEq] at heq
          rw [if_neg (by omega), ← heq.2]

/-- C8 counterexample: the triple `(1, 0, 1)` on the empty storage is
not a valid append position, and it fails only after mutating the
storage (the appended empty line survives in the panic state), so the
failure is an out-of-range abort with changed content, not a pure
out-of-sequence failure with unchanged content. -/
theorem setWord_mutating_failure :
    setWord [] 1 0 1 97 = .error ("runtime error: index out of range", [[]])
    ∧ ([[]] : Storage) ≠ ([] : Storage) :=
  ⟨rfl, by simp⟩

/-- Witness for C8 (amended): the failure-state clause applied at the
mutating triple `(1, 0, 1)` on the empty storage. -/
theorem setWord_characterization_witness :
    ([[]] : Storage) = if (1 : Int) = (([] : Storage).length : Int) + 1 ∧ (0 : Int) = 0
        ∧ (1 : Int) = 1 then ([] : Storage) ++ [[]] else ([] : Storage) :=
  (setWord_characterization [] 1 0 1 97).2 "runtime error: index out of range" [[]] rfl

/-! ## Ingestion of streams with empty words or empty lines (C2) -/

/-- One `inputBytes` step on a non-separator byte whose `setWord`
succeeds. -/
theorem inputBytes_step_ok (b : Nat) (t : List Nat) (l w c : Int) (st st' : Storage)
    (hb32 : b ≠ 32) (hb10 : b ≠ 10) (hsw : setWord st l w c b = .ok st') :
    inputBytes (b :: t) l w c st = inputBytes t l w (c + 1) st' := by
  rw [inputBytes, if_neg hb32, if_neg hb10, hsw]

/-- One `inputBytes` step on a space byte. -/
theorem inputBytes_step_space (t : List Nat) (l w c : Int) (st : Storage) :
    inputBytes (32 :: t) l w c st = inputBytes t l (w + 1) 1 st := by
  rw [inputBytes, if_pos rfl]

/-- One `inputBytes` step on a newline byte. -/
theorem inputBytes_step_nl (t : List Nat) (l w c : Int) (st : Storage) :
    inputBytes (10 :: t) l w c st = inputBytes t (l + 1) 1 1 st := by
  rw [inputBytes, if_neg (by decide), if_pos rfl]

/-- A successful `setWord` leaves the stored line count at most the
line index that was used, and the word count of the last stored line
at most the word index that was used. -/
theorem setWord_ok_state (s : Storage) (l w c : Int) (v : Nat) (s2 : Storage)
    (h : setWord s l w c v = .ok s2) :
    (s2.length : Int) ≤ l ∧ (wordsOf s2 : Int) ≤ w := by
  by_cases hA : l < (s.length : Int) ∨ l > (s.length : Int) + 1
  · rw [setWord_err_line s l w c v hA] at h
    exact absurd h (by simp)
  · rcases (by omega : l = (s.length : Int) ∨ l = (s.length : Int) + 1) with hl | hl
    · subst hl
      by_cases h0 : s.length = 0
      · have hz : (s.length : Int) = 0 := by omega
        rw [hz] at h
        rw [setWord_err_line0 s w c v h0] at h
        exact absurd h (by simp)
      · have hL : 1 ≤ s.length := by omega
        by_cases hB : w < (wordsOf s : Int) ∨ w > (wordsOf s : Int) + 1
        · rw [setWord_err_word s w c v hL hB] at h
          exact absurd h (by simp)
        · rcases (by omega : w = (wordsOf s : Int) ∨ w = (wordsOf s : Int) + 1) with hw | hw
          · subst hw
            by_cases hW0 : wordsOf s = 0
            · have hz : ((wordsOf s : Int)) = 0 := by omega
              rw [hz] at h
              rw [setWord_err_word0 s c v hL hW0] at h
              exact absurd h (by simp)
            · have hW : 1 ≤ wordsOf s := by omega
              by_cases hc : c = (charsOf s : Int) + 1
              · subst hc
                rw [setWord_ok_extend s v hL hW] at h
                rw [Except.ok.injEq] at h
                subst h
                refine ⟨by simp, ?_⟩
                have hw2 : wordsOf (s.set (s.length - 1) ((s.getD (s.length - 1) []).set
                    (wordsOf s - 1) (((s.getD (s.length - 1) []).getD (wordsOf s - 1) [])
                      ++ [v]))) = wordsOf s := by
                  unfold wordsOf
                  rw [List.length_set, getD_set_self _ _ _ _ (by omega), List.length_set]
                rw [hw2]
              · rw [setWord_err_char_last s c v hL hW hc] at h
                exact absurd h (by simp)
          · subst hw
            by_cases hc : c = 1
            · subst hc
              rw [setWord_ok_new_word s v hL] at h
              rw [Except.ok.injEq] at h
              subst h
              refine ⟨by simp, ?_⟩
              have hw2 : wordsOf (s.set (s.length - 1) ((s.getD (s.length - 1) []) ++ [[v]]))
                  = wordsOf s + 1 := by
                unfold wordsOf
                rw [List.length_set, getD_set_self _ _ _ _ (by omega)]
                simp
              rw [hw2]
              omega
            · rw [setWord_err_char_new_word s c v hL hc] at h
              exact absurd h (by simp)
    · subst hl
      by_cases hB : w < 0 ∨ w > 1
      · rw [setWord_err_word_new_line s w c v hB] at h
        exact absurd h (by simp)
      · rcases (by omega : w = 0 ∨ w = 1) with hw | hw
        · subst hw
          by_cases hc : c = 1
          · subst hc
            rw [setWord_err_word0_new_line s v] at h
            exact absurd h (by simp)
          · rw [setWord_err_char_new_line s 0 c v (Or.inl rfl) hc] at h
            exact absurd h (by simp)
        · subst hw
          by_cases hc : c = 1
          · subst hc
            rw [setWord_ok_new_line s v] at h
            rw [Except.ok.injEq] at h
            subst h
            refine ⟨by simp, ?_⟩
            have hw2 : wordsOf (s ++ [[[v]]]) = 1 := by
              unfold wordsOf
              rw [(by simp : (s ++ [[[v]]]).length - 1 = s.length), getD_append_len]
              rfl
            rw [hw2]
            omega
          · rw [setWord_err_char_new_line s 1 c v (Or.inr rfl) hc] at h
            exact absurd h (by simp)

/-- Once the line counter is at least two past the stored line count,
or exactly one past it with the word counter at least `2`, the state
is doomed: separators only push the counters further (a newline turns
the second shape into the first), and the next non-separator byte
makes ingestion abort. -/
theorem inputBytes_doomed :
    ∀ (bytes : List Nat) (l w c : Int) (st : Storage),
      ((st.length : Int) + 1 < l ∨ (l = (st.length : Int) + 1 ∧ 2 ≤ w)) →
      (∃ b ∈ bytes, isSep b = false) →
      isOkE (inputBytes bytes l w c st) = false := by
  intro bytes
  induction bytes with
  | nil =>
    intro l w c st _ hex
    obtain ⟨x, hx, _⟩ := hex
    exact absurd hx (List.not_mem_nil x)
  | cons b rest ih =>
    intro l w c st hd hex
    by_cases hb : isSep b = true
    · have hb2 : b = 32 ∨ b = 10 := by simpa [isSep] using hb
      have hrest : ∃ x ∈ rest, isSep x = false := by
        obtain ⟨x, hx, hxs⟩ := hex
        rcases List.mem_cons.1 hx with hhd | htl
        · subst hhd
          rw [hb] at hxs
          exact absurd hxs (by simp)
        · exact ⟨x, htl, hxs⟩
      rcases hb2 with h32 | h10
      · subst h32
        rw [inputBytes_step_space]
        exact ih l (w + 1) 1 st (by omega) hrest
      · subst h10
        rw [inputBytes_step_nl]
        exact ih (l + 1) 1 1 st (by omega) hrest
    · have hb32 : ¬(b = 32) := by
        intro hx
        rw [hx] at hb
        exact hb (by simp [isSep])
      have hb10 : ¬(b = 10) := by
        intro hx
        rw [hx] at hb
        exact hb (by simp [isSep])
      have herr : ∃ e, setWord st l w c b = .error e := by
        rcases hd with hd1 | ⟨hl, hw⟩
        · exact ⟨_, setWord_err_line st l w c b (by omega)⟩
        · rw [hl]
          exact ⟨_, setWord_err_word_new_line st w c b (by omega)⟩
      obtain ⟨e, he⟩ := herr
      simp only [inputBytes, if_neg hb32, if_neg hb10, he, isOkE]

/-- With the word counter already past the append position of the
current line, further spaces only push it further, and the first
non-separator byte aborts ingestion.  (A newline would instead rescue
the skipped empty word by resetting the word counter, but none occurs
before `b` here.) -/
theorem inputBytes_spaces_doomed :
    ∀ (mid : List Nat) (b : Nat) (suf : List Nat) (l w c : Int) (st : Storage),
      (∀ x ∈ mid, x = 32) → isSep b = false →
      ((st.length : Int) + 1 < l ∨ (l = (st.length : Int) + 1 ∧ 2 ≤ w)
        ∨ (l = (st.length : Int) ∧ 1 ≤ st.length ∧ (wordsOf st : Int) + 1 < w)) →
      isOkE (inputBytes (mid ++ b :: suf) l w c st) = false := by
  intro mid
  induction mid with
  | nil =>
    intro b suf l w c st _ hb hd
    have hb32 : ¬(b = 32) := by
      intro hx
      rw [hx] at hb
      exact absurd hb (by simp [isSep])
    have hb10 : ¬(b = 10) := by
      intro hx
      rw [hx] at hb
      exact absurd hb (by simp [isSep])
    have herr : ∃ e, setWord st l w c b = .error e := by
      rcases hd with hd1 | ⟨hl, hw⟩ | ⟨hl, hL, hw⟩
      · exact ⟨_, setWord_err_line st l w c b (by omega)⟩
      · rw [hl]
        exact ⟨_, setWord_err_word_new_line st w c b (by omega)⟩
      · rw [hl]
        exact ⟨_, setWord_err_word st w c b hL (by omega)⟩
    obtain ⟨e, he⟩ := herr
    show isOkE (inputBytes (b :: suf) l w c st) = false
    simp only [inputBytes, if_neg hb32, if_neg hb10, he, isOkE]
  | cons x mid ih =>
    intro b suf l w c st hmid hb hd
    have hx : x = 32 := hmid x (by simp)
    subst hx
    show isOkE (inputBytes (32 :: (mid ++ b :: suf)) l w c st) = false
    rw [inputBytes_step_space]
    exact ih b suf l (w + 1) 1 st (fun y hy => hmid y (by simp [hy])) hb (by omega)

/-- Processing any prefix of the stream keeps the counter state
reachable: the line counter stays at least the stored line count, and
when it sits on the last stored line the word counter stays at least
that line's stored word count.  Hence if every reachable state makes
the suffix abort, the whole stream aborts. -/
theorem inputBytes_prefix_fatal :
    ∀ (pre suf : List Nat) (l w c : Int) (st : Storage),
      1 ≤ l → 1 ≤ w → (st.length : Int) ≤ l →
      (l = (st.length : Int) → (wordsOf st : Int) ≤ w) →
      (∀ (l2 w2 c2 : Int) (st2 : Storage), 1 ≤ l2 → 1 ≤ w2 → (st2.length : Int) ≤ l2 →
        (l2 = (st2.length : Int) → (wordsOf st2 : Int) ≤ w2) →
        isOkE (inputBytes suf l2 w2 c2 st2) = false) →
      isOkE (inputBytes (pre ++ suf) l w c st) = false := by
  intro pre
  induction pre with
  | nil =>
    intro suf l w c st h1 h2 h3 h4 hsuf
    exact hsuf l w c st h1 h2 h3 h4
  | cons b pre ih =>
    intro suf l w c st h1 h2 h3 h4 hsuf
    show isOkE (inputBytes (b :: (pre ++ suf)) l w c st) = false
    by_cases hb32 : b = 32
    · subst hb32
      rw [inputBytes_step_space]
      exact ih suf l (w + 1) 1 st h1 (by omega) h3
        (fun hl => by have := h4 hl; omega) hsuf
    · by_cases hb10 : b = 10
      · subst hb10
        rw [inputBytes_step_nl]
        exact ih suf (l + 1) 1 1 st (by omega) (by omega) (by omega)
          (fun hl => absurd hl (by omega)) hsuf
      · cases hsw : setWord st l w c b with
        | error e =>
          simp only [inputBytes, if_neg hb32, if_neg hb10, hsw, isOkE]
        | ok st2 =>
          rw [inputBytes_step_ok b _ l w c st st2 hb32 hb10 hsw]
          have hst := setWord_ok_state st l w c b st2 hsw
          exact ih suf l w (c + 1) st2 h1 h2 hst.1 (fun _ => hst.2) hsuf

/-- C2 (amended): ingestion does abort on empty words and empty lines
that word content follows: a stream starting with a separator and
later containing any non-separator byte aborts with a fatal
condition; after any prefix, two consecutive newlines followed
anywhere later by a non-separator byte abort; after any prefix, two
consecutive spaces followed, with only spaces in between, by a
non-separator byte abort.  An intervening newline instead rescues the
skipped empty word by resetting the word counter (`a  \nb` ingests as
the two lines `a`, `b`), and trailing separators are silently dropped
(`a \n` stores just the word `a`), so the empty words and lines they
denote do not round-trip through emission. -/
theorem input_empty_structure_fatal :
    (∀ (b : Nat) (rest : List Nat), isSep b = true → (∃ c ∈ rest, isSep c = false) →
      isOkE (input (b :: rest)) = false)
    ∧ (∀ (pre suf : List Nat), (∃ c ∈ suf, isSep c = false) →
      isOkE (input (pre ++ 10 :: 10 :: suf)) = false)
    ∧ (∀ (pre mid suf : List Nat) (b : Nat), (∀ x ∈ mid, x = 32) → isSep b = false →
      isOkE (input (pre ++ 32 :: 32 :: (mid ++ b :: suf))) = false)
    ∧ input [97, 32, 32, 10, 98] = .ok [[[97]], [[98]]]
    ∧ input [97, 32, 10] = .ok [[[97]]] := by
  refine ⟨?_, ?_, ?_, rfl, rfl⟩
  · intro b rest hb hex
    have hb2 : b = 32 ∨ b = 10 := by simpa [isSep] using hb
    rcases hb2 with h32 | h10
    · subst h32
      show isOkE (inputBytes (32 :: rest) 1 1 1 []) = false
      rw [inputBytes_step_space]
      exact inputBytes_doomed rest 1 2 1 [] (by simp) hex
    · subst h10
      show isOkE (inputBytes (10 :: rest) 1 1 1 []) = false
      rw [inputBytes_step_nl]
      exact inputBytes_doomed rest 2 1 1 [] (by simp) hex
  · intro pre suf hex
    show isOkE (inputBytes (pre ++ 10 :: 10 :: suf) 1 1 1 []) = false
    apply inputBytes_prefix_fatal pre (10 :: 10 :: suf) 1 1 1 [] (by omega) (by omega)
      (by simp) (fun hx => absurd hx (by simp))
    intro l2 w2 c2 st2 h1 h2 h3 h4
    rw [inputBytes_step_nl, inputBytes_step_nl]
    exact inputBytes_doomed suf (l2 + 1 + 1) 1 1 st2 (by omega) hex
  · intro pre mid suf b hmid hb
    show isOkE (inputBytes (pre ++ 32 :: 32 :: (mid ++ b :: suf)) 1 1 1 []) = false
    apply inputBytes_prefix_fatal pre (32 :: 32 :: (mid ++ b :: suf)) 1 1 1 [] (by omega)
      (by omega) (by simp) (fun hx => absurd hx (by simp))
    intro l2 w2 c2 st2 h1 h2 h3 h4
    rw [inputBytes_step_space, inputBytes_step_space]
    apply inputBytes_spaces_doomed mid b suf l2 (w2 + 1 + 1) 1 st2 hmid hb
    rcases (by omega : (st2.length : Int) + 1 < l2 ∨ l2 = (st2.length : Int) + 1
        ∨ l2 = (st2.length : Int)) with hc | hc | hc
    · exact Or.inl hc
    · exact Or.inr (Or.inl ⟨hc, by omega⟩)
    · refine Or.inr (Or.inr ⟨hc, by omega, ?_⟩)
      have := h4 hc
      omega

/-- C2 counterexample: the stream `" a"` (leading space, so line 1 has
an empty first word) does not ingest successfully; it aborts with the
out-of-sequence word condition. -/
theorem input_empty_word_claim_false :
    input [32, 97] = .error ("Word not last or just past last (ERLSBW)", []) := rfl

/-- Witness for C2 (amended): the leading-separator clause at the
stream `" a"`, and the doubled-space clause at the stream `"ab  cd"`. -/
theorem input_empty_structure_fatal_witness :
    isOkE (input [32, 97]) = false ∧ isOkE (input [97, 98, 32, 32, 99, 100]) = false :=
  ⟨input_empty_structure_fatal.1 32 [97] rfl ⟨97, by simp, rfl⟩,
   input_empty_structure_fatal.2.2.1 [97, 98] [] [100] 99
     (fun x hx => absurd hx (by simp)) rfl⟩

/-! ## Round trip of well-formed documents (C4) -/

theorem wordsOf_append (s₀ : Storage) (ws : List (List Nat)) :
    wordsOf (s₀ ++ [ws]) = ws.length := by
  unfold wordsOf
  rw [(by simp : (s₀ ++ [ws]).length - 1 = s₀.length), getD_append_len]

theorem charsOf_append (s₀ : Storage) (ws : List (List Nat)) (wd : List Nat) :
    charsOf (s₀ ++ [ws ++ [wd]]) = wd.length := by
  unfold charsOf
  rw [(by simp : (s₀ ++ [ws ++ [wd]]).length - 1 = s₀.length), getD_append_len,
    wordsOf_append, (by simp : (ws ++ [wd]).length - 1 = ws.length), getD_append_len]

/-- `setWord` at the next character of the last word, on a decomposed
storage. -/
theorem setWord_extend_decomposed (s₀ : Storage) (ws : List (List Nat)) (wd : List Nat)
    (b : Nat) :
    setWord (s₀ ++ [ws ++ [wd]]) ((s₀.length : Int) + 1) ((ws.length : Int) + 1)
        ((wd.length : Int) + 1) b
      = .ok (s₀ ++ [ws ++ [wd ++ [b]]]) := by
  have h1 : ((s₀ ++ [ws ++ [wd]]).length : Int) = (s₀.length : Int) + 1 := by simp
  have h2 : (wordsOf (s₀ ++ [ws ++ [wd]]) : Int) = (ws.length : Int) + 1 := by
    rw [wordsOf_append]
    simp
  have h3 : (charsOf (s₀ ++ [ws ++ [wd]]) : Int) = (wd.length : Int) := by
    rw [charsOf_append]
  have he := setWord_ok_extend (s₀ ++ [ws ++ [wd]]) b (by simp) (by rw [wordsOf_append]; simp)
  rw [h1, h2, h3] at he
  rw [he]
  rw [(by simp : (s₀ ++ [ws ++ [wd]]).length - 1 = s₀.length), getD_append_len,
    wordsOf_append, (by simp : (ws ++ [wd]).length - 1 = ws.length), getD_append_len,
    set_append_len, set_append_len]

/-- `setWord` at the first character of a new word on the last line, on
a decomposed storage. -/
theorem setWord_new_word_decomposed (s₀ : Storage) (ws : List (List Nat)) (b : Nat) :
    setWord (s₀ ++ [ws]) ((s₀.length : Int) + 1) ((ws.length : Int) + 1) 1 b
      = .ok (s₀ ++ [ws ++ [[b]]]) := by
  have h1 : ((s₀ ++ [ws]).length : Int) = (s₀.length : Int) + 1 := by simp
  have h2 : (wordsOf (s₀ ++ [ws]) : Int) = (ws.length : Int) := by rw [wordsOf_append]
  have he := setWord_ok_new_word (s₀ ++ [ws]) b (by simp)
  rw [h1, h2] at he
  rw [he]
  rw [(by simp : (s₀ ++ [ws]).length - 1 = s₀.length), getD_append_len, set_append_len]

/-- Ingesting the bytes of the rest of a word extends the last word of
the last line, byte by byte. -/
theorem input_word_extend (cs : List Nat) :
    ∀ (rest : List Nat) (s₀ : Storage) (ws : List (List Nat)) (wd : List Nat),
    (∀ b ∈ cs, b ≠ 32 ∧ b ≠ 10) →
    inputBytes (cs ++ rest) ((s₀.length : Int) + 1) ((ws.length : Int) + 1)
        ((wd.length : Int) + 1) (s₀ ++ [ws ++ [wd]])
      = inputBytes rest ((s₀.length : Int) + 1) ((ws.length : Int) + 1)
          ((wd.length : Int) + (cs.length : Int) + 1) (s₀ ++ [ws ++ [wd ++ cs]]) := by
  induction cs with
  | nil =>
    intro rest s₀ ws wd _
    simp
  | cons b cs ih =>
    intro rest s₀ ws wd h
    have hb := h b (by simp)
    show inputBytes (b :: (cs ++ rest)) _ _ _ _ = _
    rw [inputBytes_step_ok b _ _ _ _ _ _ hb.1 hb.2 (setWord_extend_decomposed s₀ ws wd b)]
    have harg : (wd.length : Int) + 1 + 1 = ((wd ++ [b]).length : Int) + 1 := by
      simp
    rw [harg, ih rest s₀ ws (wd ++ [b]) (fun x hx => h x (by simp [hx]))]
    have harg2 : ((wd ++ [b]).length : Int) + (cs.length : Int) + 1
        = (wd.length : Int) + ((b :: cs).length : Int) + 1 := by
      simp
      omega
    rw [harg2, (by simp : wd ++ [b] ++ cs = wd ++ (b :: cs))]

/-- A whole word ingested from the first-word position of a new line. -/
theorem input_word_new_line (w rest : List Nat) (s : Storage)
    (hw : w ≠ []) (h : ∀ b ∈ w, b ≠ 32 ∧ b ≠ 10) :
    inputBytes (w ++ rest) ((s.length : Int) + 1) 1 1 s
      = inputBytes rest ((s.length : Int) + 1) 1 ((w.length : Int) + 1) (s ++ [[w]]) := by
  obtain ⟨b, bs, rfl⟩ : ∃ b bs, w = b :: bs := by
    cases w with
    | nil => exact absurd rfl hw
    | cons b bs => exact ⟨b, bs, rfl⟩
  have hb := h b (by simp)
  show inputBytes (b :: (bs ++ rest)) _ _ _ _ = _
  rw [inputBytes_step_ok b _ _ _ _ _ _ hb.1 hb.2 (setWord_ok_new_line s b)]
  have he := input_word_extend bs rest s [] [b] (fun x hx => h x (by simp [hx]))
  rw [(by simp : ((([] : List (List Nat))).length : Int) + 1 = (1 : Int)),
    (by simp : (([b] : List Nat).length : Int) + 1 = (1 : Int) + 1),
    (by simp : s ++ [[] ++ [[b]]] = s ++ [[[b]]])] at he
  rw [he]
  rw [(by simp; omega : (([b] : List Nat).length : Int) + (bs.length : Int) + 1
    = ((b :: bs).length : Int) + 1), (by simp : s ++ [[] ++ [[b] ++ bs]] = s ++ [[b :: bs]])]

/-- A whole word ingested from the new-word position of the (existing)
last line. -/
theorem input_word_app (w rest : List Nat) (s₀ : Storage) (ws : List (List Nat))
    (hw : w ≠ []) (h : ∀ b ∈ w, b ≠ 32 ∧ b ≠ 10) :
    inputBytes (w ++ rest) ((s₀.length : Int) + 1) ((ws.length : Int) + 1) 1 (s₀ ++ [ws])
      = inputBytes rest ((s₀.length : Int) + 1) ((ws.length : Int) + 1) ((w.length : Int) + 1)
          (s₀ ++ [ws ++ [w]]) := by
  obtain ⟨b, bs, rfl⟩ : ∃ b bs, w = b :: bs := by
    cases w with
    | nil => exact absurd rfl hw
    | cons b bs => exact ⟨b, bs, rfl⟩
  have hb := h b (by simp)
  show inputBytes (b :: (bs ++ rest)) _ _ _ _ = _
  rw [inputBytes_step_ok b _ _ _ _ _ _ hb.1 hb.2 (setWord_new_word_decomposed s₀ ws b)]
  have he := input_word_extend bs rest s₀ ws [b] (fun x hx => h x (by simp [hx]))
  rw [(by simp : (([b] : List Nat).length : Int) + 1 = (1 : Int) + 1)] at he
  rw [he]
  rw [(by simp; omega : (([b] : List Nat).length : Int) + (bs.length : Int) + 1
    = ((b :: bs).length : Int) + 1), (by simp : ws ++ [[b] ++ bs] = ws ++ [b :: bs])]

theorem joinWords_cons (w : List Nat) (ws : List (List Nat)) :
    joinWords (w :: ws) = w ++ wordsTail ws := by
  induction ws generalizing w with
  | nil => simp [joinWords, wordsTail]
  | cons w2 ws ih =>
    show w ++ 32 :: joinWords (w2 :: ws) = _
    rw [ih w2]
    simp [wordsTail]

/-- The remaining words of a line (each preceded by a space), ingested
from the last-word position of the last line. -/
theorem input_words_tail (ws : List (List Nat)) :
    ∀ (rest : List Nat) (s₀ : Storage) (done : List (List Nat)) (c : Int),
    done ≠ [] →
    (∀ w ∈ ws, w ≠ [] ∧ ∀ b ∈ w, b ≠ 32 ∧ b ≠ 10) →
    ∃ cq : Int,
      inputBytes (wordsTail ws ++ rest) ((s₀.length : Int) + 1) (done.length : Int) c
          (s₀ ++ [done])
        = inputBytes rest ((s₀.length : Int) + 1)
            ((done.length : Int) + (ws.length : Int)) cq (s₀ ++ [done ++ ws]) := by
  induction ws with
  | nil =>
    intro rest s₀ done c _ _
    refine ⟨c, ?_⟩
    simp [wordsTail]
  | cons w ws ih =>
    intro rest s₀ done c hd h
    have hw := h w (by simp)
    have hassoc : wordsTail (w :: ws) ++ rest = 32 :: (w ++ (wordsTail ws ++ rest)) := by
      simp [wordsTail]
    rw [hassoc, inputBytes_step_space]
    rw [input_word_app w _ s₀ done hw.1 hw.2]
    obtain ⟨cq, hq⟩ := ih rest s₀ (done ++ [w]) ((w.length : Int) + 1)
      (by simp) (fun x hx => h x (by simp [hx]))
    rw [(by simp : ((done ++ [w]).length : Int) = (done.length : Int) + 1)] at hq
    refine ⟨cq, ?_⟩
    rw [hq]
    rw [(by simp; omega : (done.length : Int) + 1 + (ws.length : Int)
      = (done.length : Int) + ((w :: ws).length : Int)),
      (by simp : done ++ [w] ++ ws = done ++ (w :: ws))]

/-- A whole well-formed line ingested from the new-line position. -/
theorem input_line (ws : List (List Nat)) (rest : List Nat) (s : Storage)
    (hne : ws ≠ []) (h : ∀ w ∈ ws, w ≠ [] ∧ ∀ b ∈ w, b ≠ 32 ∧ b ≠ 10) :
    ∃ wq cq : Int,
      inputBytes (joinWords ws ++ rest) ((s.length : Int) + 1) 1 1 s
        = inputBytes rest ((s.length : Int) + 1) wq cq (s ++ [ws]) := by
  obtain ⟨w, ws', rfl⟩ : ∃ w ws', ws = w :: ws' := by
    cases ws with
    | nil => exact absurd rfl hne
    | cons w ws' => exact ⟨w, ws', rfl⟩
  have hw := h w (by simp)
  rw [joinWords_cons, List.append_assoc]
  rw [input_word_new_line w _ s hw.1 hw.2]
  obtain ⟨cq, hq⟩ := input_words_tail ws' rest (s) ([w]) ((w.length : Int) + 1)
    (by simp) (fun x hx => h x (by simp [hx]))
  rw [(by simp : (([w] : List (List Nat)).length : Int) = (1 : Int)),
    (by simp : s ++ [[w] ++ ws'] = s ++ [w :: ws'])] at hq
  exact ⟨1 + (ws'.length : Int), cq, hq⟩

theorem isEmpty_false_ne {α : Type} (l : List α) (h : l.isEmpty = false) : l ≠ [] := by
  cases l with
  | nil => simp at h
  | cons a t => simp

theorem WFdoc_cons (ws : List (List Nat)) (d : Storage) (h : WFdoc (ws :: d) = true) :
    ws ≠ [] ∧ (∀ w ∈ ws, w ≠ [] ∧ ∀ b ∈ w, b ≠ 32 ∧ b ≠ 10) ∧ WFdoc d = true := by
  simp only [WFdoc, List.all_cons, Bool.and_eq_true, List.all_eq_true, Bool.not_eq_true',
    Bool.or_eq_false_iff, beq_eq_false_iff_ne] at h
  obtain ⟨⟨hne, hws⟩, hd⟩ := h
  refine ⟨isEmpty_false_ne ws hne, fun w hw => ⟨isEmpty_false_ne w (hws w hw).1, ?_⟩, ?_⟩
  · exact fun b hb => (hws w hw).2 b hb
  · simp only [WFdoc, List.all_cons, Bool.and_eq_true, List.all_eq_true, Bool.not_eq_true',
      Bool.or_eq_false_iff, beq_eq_false_iff_ne]
    exact hd

/-- Ingesting a rendered well-formed document appends its lines. -/
theorem input_render_doc : ∀ (d : Storage) (s : Storage), WFdoc d = true →
    inputBytes (render d) ((s.length : Int) + 1) 1 1 s = .ok (s ++ d) := by
  intro d
  induction d with
  | nil =>
    intro s _
    simp [render, inputBytes]
  | cons ws d ih =>
    intro s h
    obtain ⟨hne, hwords, hrest⟩ := WFdoc_cons ws d h
    have hr : render (ws :: d) = joinWords ws ++ (10 :: render d) := by
      simp [render]
    rw [hr]
    obtain ⟨wq, cq, hq⟩ := input_line ws (10 :: render d) s hne hwords
    rw [hq, inputBytes_step_nl]
    have harg : ((s.length : Int) + 1) + 1 = ((s ++ [ws]).length : Int) + 1 := by simp
    rw [harg, ih (s ++ [ws]) hrest]
    rw [(by simp : (s ++ [ws]) ++ d = s ++ (ws :: d))]

/-- Ingesting a rendered well-formed document that lacks the final
newline appends the same lines. -/
theorem input_renderNT_doc : ∀ (d : Storage), d ≠ [] → ∀ (s : Storage), WFdoc d = true →
    inputBytes (renderNT d) ((s.length : Int) + 1) 1 1 s = .ok (s ++ d) := by
  intro d
  induction d with
  | nil =>
    intro h
    exact absurd rfl h
  | cons ws d ih =>
    intro _ s h
    obtain ⟨hne, hwords, hrest⟩ := WFdoc_cons ws d h
    cases d with
    | nil =>
      show inputBytes (joinWords ws) _ _ _ _ = _
      obtain ⟨wq, cq, hq⟩ := input_line ws [] s hne hwords
      rw [(by simp : joinWords ws = joinWords ws ++ ([] : List Nat)), hq]
      rfl
    | cons ws2 d2 =>
      show inputBytes (joinWords ws ++ 10 :: renderNT (ws2 :: d2)) _ _ _ _ = _
      obtain ⟨wq, cq, hq⟩ := input_line ws (10 :: renderNT (ws2 :: d2)) s hne hwords
      rw [hq, inputBytes_step_nl]
      have harg : ((s.length : Int) + 1) + 1 = ((s ++ [ws]).length : Int) + 1 := by simp
      rw [harg, ih (by simp) (s ++ [ws]) hrest]
      rw [(by simp : (s ++ [ws]) ++ (ws2 :: d2) = s ++ (ws :: ws2 :: d2))]

/-- The emitter's inner word loop produces the space-joined words. -/
theorem output_words (ws : List (List Nat)) :
    (List.range ws.length).flatMap (fun w0 =>
      ws.getD w0 [] ++ if w0 + 1 < ws.length then [32] else []) = joinWords ws := by
  induction ws with
  | nil => rfl
  | cons w ws ih =>
    show (List.range (ws.length + 1)).flatMap _ = _
    rw [List.range_succ_eq_map, List.flatMap_cons, List.flatMap_map]
    simp only [List.getD_cons_succ, List.getD_cons_zero, List.length_cons,
      Nat.succ_eq_add_one, Nat.add_lt_add_iff_right, Nat.zero_add]
    rw [ih]
    cases ws with
    | nil => simp [joinWords]
    | cons w2 ws2 => simp [joinWords]

/-- C4, emission half: emitting a `lineStorage` produces its rendering. -/
theorem output_render (d : Storage) : output (lineStorage d) = render d := by
  have h1 : output (lineStorage d)
      = (List.range d.length).flatMap (fun l0 =>
          ((List.range ((d.getD l0 []).length)).flatMap (fun w0 =>
            (List.range (((d.getD l0 []).getD w0 []).length)).map
              (fun c0 => ((d.getD l0 []).getD w0 []).getD c0 0)
            ++ (if w0 + 1 < (d.getD l0 []).length then [32] else [])))
          ++ [10]) := rfl
  rw [h1]
  rw [flatMap_range_getD d (fun ws =>
      ((List.range ws.length).flatMap (fun w0 =>
        (List.range ((ws.getD w0 []).length)).map (fun c0 => (ws.getD w0 []).getD c0 0)
        ++ (if w0 + 1 < ws.length then [32] else [])))
      ++ [10]) []]
  rw [render]
  apply congrArg List.flatten
  apply List.map_congr_left
  intro ws _
  have hwords : (fun w0 => (List.range ((ws.getD w0 []).length)).map
        (fun c0 => (ws.getD w0 []).getD c0 0)
      ++ (if w0 + 1 < ws.length then [32] else []))
      = (fun w0 => ws.getD w0 [] ++ (if w0 + 1 < ws.length then [32] else [])) :=
    funext (fun w0 => by rw [map_range_getD])
  rw [hwords, output_words]

/-- C4: ingesting an already-well-formed document (single spaces
between words, one newline per line) reproduces it exactly, emitting it
reproduces the byte stream, and a missing final newline is the only
byte difference repaired (the trailing terminator is added). -/
theorem roundTrip_wellFormed (d : Storage) (h : WFdoc d = true) :
    input (render d) = .ok d
    ∧ output (lineStorage d) = render d
    ∧ (d ≠ [] → input (renderNT d) = .ok d) := by
  refine ⟨?_, output_render d, ?_⟩
  · have hr := input_render_doc d [] h
    simpa [input] using hr
  · intro hne
    have hr := input_renderNT_doc d hne [] h
    simpa [input] using hr

/-- Witness for C4 at the one-line document `ab cd`. -/
theorem roundTrip_wellFormed_witness :
    input (render stAB) = .ok stAB ∧ input (renderNT stAB) = .ok stAB :=
  ⟨(roundTrip_wellFormed stAB (by decide)).1,
   (roundTrip_wellFormed stAB (by decide)).2.2 (by simp [stAB])⟩

/-! ## The quicksort of `newAlphabetizer`: basic `rotStep` facts -/

theorem rotStep_length (perm : List Nat) (p i : Nat) :
    (rotStep perm p i).length = perm.length := by
  unfold rotStep
  split <;> simp

theorem rotStep_getD_p (perm : List Nat) (p i : Nat) (hpi : p < i) (hi : i < perm.length) :
    (rotStep perm p i).getD p 0 = perm.getD i 0 := by
  unfold rotStep
  split
  · rw [getD_set_ne _ _ _ _ _ (by omega), getD_set_self _ _ _ _ (by omega)]
  · rw [getD_set_ne _ _ _ _ _ (by omega), getD_set_ne _ _ _ _ _ (by omega),
      getD_set_self _ _ _ _ (by omega)]

theorem rotStep_getD_p1 (perm : List Nat) (p i : Nat) (hpi : p < i) (hi : i < perm.length) :
    (rotStep perm p i).getD (p + 1) 0 = perm.getD p 0 := by
  unfold rotStep
  split
  · next hcase =>
    subst hcase
    rw [getD_set_self _ _ _ _ (by simp; omega)]
  · rw [getD_set_ne _ _ _ _ _ (by omega), getD_set_self _ _ _ _ (by simp; omega)]

theorem rotStep_getD_i_far (perm : List Nat) (p i : Nat) (h2 : p + 1 < i)
    (hi : i < perm.length) :
    (rotStep perm p i).getD i 0 = perm.getD (p + 1) 0 := by
  unfold rotStep
  rw [if_neg (by omega)]
  rw [getD_set_self _ _ _ _ (by simp; omega)]

theorem rotStep_getD_other (perm : List Nat) (p i j : Nat) (hj1 : j ≠ p) (hj2 : j ≠ p + 1)
    (hj3 : j ≠ i) :
    (rotStep perm p i).getD j 0 = perm.getD j 0 := by
  unfold rotStep
  split
  · rw [getD_set_ne _ _ _ _ _ (by omega), getD_set_ne _ _ _ _ _ (by omega)]
  · rw [getD_set_ne _ _ _ _ _ (by omega), getD_set_ne _ _ _ _ _ (by omega),
      getD_set_ne _ _ _ _ _ (by omega)]

theorem swap_cons_perm : ∀ (t : List Nat) (k : Nat) (x : Nat), k < t.length →
    List.Perm (t.getD k 0 :: t.set k x) (x :: t) := by
  intro t
  induction t with
  | nil =>
    intro k x h
    simp at h
  | cons y t ih =>
    intro k x h
    cases k with
    | zero => exact List.Perm.swap x y t
    | succ k =>
      show List.Perm (t.getD k 0 :: y :: t.set k x) (x :: y :: t)
      have h1 := List.Perm.swap y (t.getD k 0) (t.set k x)
      have h2 := List.Perm.cons y (ih k x (by simpa using h))
      exact h1.trans (h2.trans (List.Perm.swap x y t))

theorem swap_perm : ∀ (l : List Nat) (a b : Nat), a < b → b < l.length →
    List.Perm ((l.set a (l.getD b 0)).set b (l.getD a 0)) l := by
  intro l
  induction l with
  | nil =>
    intro a b _ h
    simp at h
  | cons x t ih =>
    intro a b hab hb
    cases a with
    | zero =>
      obtain ⟨b', rfl⟩ : ∃ b', b = b' + 1 := ⟨b - 1, by omega⟩
      exact swap_cons_perm t b' x (by simpa using hb)
    | succ a =>
      obtain ⟨b', rfl⟩ : ∃ b', b = b' + 1 := ⟨b - 1, by omega⟩
      exact List.Perm.cons x (ih a b' (by omega) (by simpa using hb))

theorem rotStep_perm (perm : List Nat) (p i : Nat) (hpi : p < i) (hi : i < perm.length) :
    List.Perm (rotStep perm p i) perm := by
  unfold rotStep
  split
  · exact swap_perm perm p i hpi hi
  · next hne =>
    have h2 : p + 1 < i := by omega
    have hgd_i : ((perm.set p (perm.getD i 0)).set i (perm.getD p 0)).getD i 0
        = perm.getD p 0 := getD_set_self _ _ _ _ (by simp; omega)
    have hgd_p1 : ((perm.set p (perm.getD i 0)).set i (perm.getD p 0)).getD (p + 1) 0
        = perm.getD (p + 1) 0 := by
      rw [getD_set_ne _ _ _ _ _ (by omega), getD_set_ne _ _ _ _ _ (by omega)]
    have e2 : (((perm.set p (perm.getD i 0)).set i (perm.getD p 0)).set (p + 1)
          (perm.getD p 0)).set i (perm.getD (p + 1) 0)
        = ((perm.set p (perm.getD i 0)).set (p + 1) (perm.getD p 0)).set i
            (perm.getD (p + 1) 0) := by
      rw [List.set_comm _ _ _ (by omega : i ≠ p + 1), List.set_set]
    rw [← e2]
    nth_rewrite 2 [← hgd_i]
    rw [← hgd_p1]
    have hlen : i < ((perm.set p (perm.getD i 0)).set i (perm.getD p 0)).length := by
      simp
      omega
    exact (swap_perm _ (p + 1) i h2 hlen).trans (swap_perm perm p i hpi hi)

/-! ## The partition loop: length, untouched cells, bounds, permutation -/

theorem partitionGo_length (less : Nat → Nat → Bool) :
    ∀ (fuel : Nat) (perm : List Nat) (p i r : Nat),
    (partitionGo less fuel perm p i r).1.length = perm.length := by
  intro fuel
  induction fuel with
  | zero =>
    intro perm p i r
    rfl
  | succ fuel ih =>
    intro perm p i r
    simp only [partitionGo]
    split
    · split
      · rw [ih, rotStep_length]
      · rw [ih]
    · rfl

theorem partitionGo_bounds (less : Nat → Nat → Bool) :
    ∀ (fuel : Nat) (perm : List Nat) (p i r : Nat),
    p < i → i ≤ r → r ≤ i + fuel →
    p ≤ (partitionGo less fuel perm p i r).2 ∧ (partitionGo less fuel perm p i r).2 < r := by
  intro fuel
  induction fuel with
  | zero =>
    intro perm p i r h1 h2 h3
    show p ≤ p ∧ p < r
    exact ⟨Nat.le_refl p, by omega⟩
  | succ fuel ih =>
    intro perm p i r h1 h2 h3
    simp only [partitionGo]
    split
    · next hir =>
      split
      · have := ih (rotStep perm p i) (p + 1) (i + 1) r (by omega) (by omega) (by omega)
        exact ⟨by omega, this.2⟩
      · exact ih perm p (i + 1) r (by omega) (by omega) (by omega)
    · next hir =>
      show p ≤ p ∧ p < r
      exact ⟨Nat.le_refl p, by omega⟩

theorem partitionGo_untouched (less : Nat → Nat → Bool) :
    ∀ (fuel : Nat) (perm : List Nat) (p i r j : Nat),
    p < i → (j < p ∨ r ≤ j) →
    (partitionGo less fuel perm p i r).1.getD j 0 = perm.getD j 0 := by
  intro fuel
  induction fuel with
  | zero =>
    intro perm p i r j _ _
    rfl
  | succ fuel ih =>
    intro perm p i r j h1 h2
    simp only [partitionGo]
    split
    · next hir =>
      split
      · rw [ih (rotStep perm p i) (p + 1) (i + 1) r j (by omega) (by omega)]
        exact rotStep_getD_other perm p i j (by omega) (by omega) (by omega)
      · exact ih perm p (i + 1) r j (by omega) h2

    · rfl

theorem partitionGo_perm (less : Nat → Nat → Bool) :
    ∀ (fuel : Nat) (perm : List Nat) (p i r : Nat),
    p < i → r ≤ perm.length →
    List.Perm (partitionGo less fuel perm p i r).1 perm := by
  intro fuel
  induction fuel with
  | zero =>
    intro perm p i r _ _
    exact List.Perm.refl perm
  | succ fuel ih =>
    intro perm p i r h1 h2
    simp only [partitionGo]
    split
    · next hir =>
      split
      · have hperm := rotStep_perm perm p i h1 (by omega)
        have hr : r ≤ (rotStep perm p i).length := by rw [rotStep_length]; omega
        exact (ih (rotStep perm p i) (p + 1) (i + 1) r (by omega) hr).trans hperm
      · exact ih perm p (i + 1) r (by omega) h2
    · exact List.Perm.refl perm

/-- The partition invariant: on return, cells left of the pivot hold
values below the pivot value, the pivot cell holds the pivot value, and
cells right of the pivot up to `r` hold values not below it. -/
theorem partitionGo_inv (less : Nat → Nat → Bool) (pv : Nat) (L : Nat) :
    ∀ (fuel : Nat) (perm : List Nat) (p i r : Nat),
    p < i → i ≤ r → r ≤ i + fuel → r ≤ perm.length → L ≤ p →
    perm.getD p 0 = pv →
    (∀ j, L ≤ j → j < p → less (perm.getD j 0) pv = true) →
    (∀ j, p < j → j < i → less (perm.getD j 0) pv = false) →
    ((partitionGo less fuel perm p i r).1.getD (partitionGo less fuel perm p i r).2 0 = pv
     ∧ (∀ j, L ≤ j → j < (partitionGo less fuel perm p i r).2 →
         less ((partitionGo less fuel perm p i r).1.getD j 0) pv = true)
     ∧ (∀ j, (partitionGo less fuel perm p i r).2 < j → j < r →
         less ((partitionGo less fuel perm p i r).1.getD j 0) pv = false)) := by
  intro fuel
  induction fuel with
  | zero =>
    intro perm p i r h1 h2 h3 h4 h5 hB hA hC
    have hri : r = i := by omega
    exact ⟨hB, hA, fun j hj1 hj2 => hC j hj1 (by omega)⟩
  | succ fuel ih =>
    intro perm p i r h1 h2 h3 h4 h5 hB hA hC
    simp only [partitionGo]
    split
    · next hir =>
      rw [hB]
      by_cases hg : less (perm.getD i 0) pv = true
      · rw [if_pos hg]
        apply ih (rotStep perm p i) (p + 1) (i + 1) r (by omega) (by omega) (by omega)
          (by rw [rotStep_length]; omega) (by omega)
        · rw [rotStep_getD_p1 perm p i h1 (by omega)]
          exact hB
        · intro j hj1 hj2
          rcases (by omega : j < p ∨ j = p) with hjp | hjp
          · rw [rotStep_getD_other perm p i j (by omega) (by omega) (by omega)]
            exact hA j hj1 hjp
          · rw [hjp, rotStep_getD_p perm p i h1 (by omega)]
            exact hg
        · intro j hj1 hj2
          rcases (by omega : j = i ∨ j < i) with hji | hji
          · rw [hji, rotStep_getD_i_far perm p i (by omega) (by omega)]
            exact hC (p + 1) (by omega) (by omega)
          · rw [rotStep_getD_other perm p i j (by omega) (by omega) (by omega)]
            exact hC j (by omega) hji
      · rw [if_neg hg]
        apply ih perm p (i + 1) r (by omega) (by omega) (by omega) h4 h5 hB hA
        intro j hj1 hj2
        rcases (by omega : j = i ∨ j < i) with hji | hji
        · rw [hji]
          simp only [Bool.not_eq_true] at hg
          exact hg
        · exact hC j hj1 hji
    · next hir =>
      exact ⟨hB, hA, fun j hj1 hj2 => hC j hj1 (by omega)⟩

/-! ## `quickSort`: length, untouched cells, permutation -/

theorem partitionLoop_length (less : Nat → Nat → Bool) (perm : List Nat) (p i r : Nat) :
    (partitionLoop less perm p i r).1.length = perm.length :=
  partitionGo_length less (r - i) perm p i r

theorem partitionLoop_bounds (less : Nat → Nat → Bool) (perm : List Nat) (p i r : Nat)
    (h1 : p < i) (h2 : i ≤ r) :
    p ≤ (partitionLoop less perm p i r).2 ∧ (partitionLoop less perm p i r).2 < r :=
  partitionGo_bounds less (r - i) perm p i r h1 h2 (by omega)

theorem partitionLoop_untouched (less : Nat → Nat → Bool) (perm : List Nat) (p i r j : Nat)
    (h1 : p < i) (h2 : j < p ∨ r ≤ j) :
    (partitionLoop less perm p i r).1.getD j 0 = perm.getD j 0 :=
  partitionGo_untouched less (r - i) perm p i r j h1 h2

theorem partitionLoop_perm (less : Nat → Nat → Bool) (perm : List Nat) (p i r : Nat)
    (h1 : p < i) (h2 : r ≤ perm.length) :
    List.Perm (partitionLoop less perm p i r).1 perm :=
  partitionGo_perm less (r - i) perm p i r h1 h2

theorem quickSortGo_length (less : Nat → Nat → Bool) :
    ∀ (fuel : Nat) (perm : List Nat) (L R : Nat),
    (quickSortGo less fuel perm L R).length = perm.length := by
  intro fuel
  induction fuel with
  | zero =>
    intro perm L R
    rfl
  | succ fuel ih =>
    intro perm L R
    simp only [quickSortGo]
    split
    · rfl
    · rw [ih, ih, partitionLoop_length]

theorem quickSortGo_untouched (less : Nat → Nat → Bool) :
    ∀ (fuel : Nat) (perm : List Nat) (L R j : Nat),
    (j < L ∨ R ≤ j) →
    (quickSortGo less fuel perm L R).getD j 0 = perm.getD j 0 := by
  intro fuel
  induction fuel with
  | zero =>
    intro perm L R j _
    rfl
  | succ fuel ih =>
    intro perm L R j hj
    simp only [quickSortGo]
    split
    · rfl
    · next hval =>
      have hb := partitionLoop_bounds less perm L (L + 1) R (by omega) (by omega)
      rw [ih _ (_ + 1) R j (by omega)]
      rw [ih _ L (partitionLoop less perm L (L + 1) R).2 j (by omega)]
      exact partitionLoop_untouched less perm L (L + 1) R j (by omega) hj

theorem quickSortGo_perm (less : Nat → Nat → Bool) :
    ∀ (fuel : Nat) (perm : List Nat) (L R : Nat),
    R ≤ perm.length →
    List.Perm (quickSortGo less fuel perm L R) perm := by
  intro fuel
  induction fuel with
  | zero =>
    intro perm L R _
    exact List.Perm.refl perm
  | succ fuel ih =>
    intro perm L R hR
    simp only [quickSortGo]
    split
    · exact List.Perm.refl perm
    · next hval =>
      have hb := partitionLoop_bounds less perm L (L + 1) R (by omega) (by omega)
      have hlen1 : (partitionLoop less perm L (L + 1) R).1.length = perm.length :=
        partitionLoop_length less perm L (L + 1) R
      have hp1 : List.Perm (quickSortGo less fuel (partitionLoop less perm L (L + 1) R).1 L
          (partitionLoop less perm L (L + 1) R).2) (partitionLoop less perm L (L + 1) R).1 :=
        ih _ L _ (by omega)
      have hlen2 : (quickSortGo less fuel (partitionLoop less perm L (L + 1) R).1 L
          (partitionLoop less perm L (L + 1) R).2).length = perm.length := by
        rw [quickSortGo_length, hlen1]
      have hp2 := ih (quickSortGo less fuel (partitionLoop less perm L (L + 1) R).1 L
          (partitionLoop less perm L (L + 1) R).2) ((partitionLoop less perm L (L + 1) R).2 + 1)
          R (by omega)
      exact hp2.trans (hp1.trans (partitionLoop_perm less perm L (L + 1) R (by omega) hR))

/-! ## Segments of a list -/

theorem seg_length (a b : Nat) (l : List Nat) (hab : a ≤ b) (hb : b ≤ l.length) :
    (seg a b l).length = b - a := by
  simp only [seg, List.length_take, List.length_drop]
  omega

theorem seg_getD (a b j : Nat) (l : List Nat) (ha : a ≤ j) (hj : j < b) (hb : b ≤ l.length) :
    (seg a b l).getD (j - a) 0 = l.getD j 0 := by
  have h1 : j - a < (seg a b l).length := by
    rw [seg_length a b l (by omega) hb]
    omega
  rw [List.getD_eq_getElem _ _ h1, List.getD_eq_getElem _ _ (by omega : j < l.length)]
  simp only [seg]
  rw [List.getElem_take, List.getElem_drop]
  simp only [(by omega : a + (j - a) = j)]

theorem seg_mem (a b j : Nat) (l : List Nat) (ha : a ≤ j) (hj : j < b) (hb : b ≤ l.length) :
    l.getD j 0 ∈ seg a b l := by
  rw [← seg_getD a b j l ha hj hb]
  have h1 : j - a < (seg a b l).length := by
    rw [seg_length a b l (by omega) hb]
    omega
  rw [List.getD_eq_getElem _ _ h1]
  exact List.getElem_mem h1

theorem seg_exists (a b : Nat) (l : List Nat) (x : Nat) (hb : b ≤ l.length)
    (hx : x ∈ seg a b l) : ∃ j, a ≤ j ∧ j < b ∧ l.getD j 0 = x := by
  by_cases hab : a ≤ b
  · obtain ⟨idx, hidx, heq⟩ := List.mem_iff_getElem.1 hx
    have hlen := seg_length a b l hab hb
    refine ⟨a + idx, by omega, by rw [hlen] at hidx; omega, ?_⟩
    have h2 := seg_getD a b (a + idx) l (by omega) (by rw [hlen] at hidx; omega) hb
    rw [(by omega : a + idx - a = idx)] at h2
    rw [← h2, List.getD_eq_getElem _ _ hidx, heq]
  · exfalso
    have hnil : seg a b l = [] := by
      simp only [seg, (by omega : b - a = 0), List.take_zero]
    rw [hnil] at hx
    exact absurd hx (List.not_mem_nil x)

theorem seg_eq_of_agree (a b : Nat) (l l' : List Nat) (hab : a ≤ b) (hb : b ≤ l.length)
    (hlen : l.length = l'.length)
    (h : ∀ j, a ≤ j → j < b → l.getD j 0 = l'.getD j 0) : seg a b l = seg a b l' := by
  apply List.ext_getElem
  · rw [seg_length a b l hab hb, seg_length a b l' hab (by omega)]
  · intro idx h1 h2
    rw [seg_length a b l hab hb] at h1
    have e1 := seg_getD a b (a + idx) l (by omega) (by omega) hb
    have e2 := seg_getD a b (a + idx) l' (by omega) (by omega) (by omega)
    rw [(by omega : a + idx - a = idx)] at e1 e2
    rw [List.getD_eq_getElem _ _ (by omega)] at e1 e2
    rw [e1, e2]
    exact h (a + idx) (by omega) (by omega)

theorem take_eq_of_agree (a : Nat) (l l' : List Nat) (ha : a ≤ l.length)
    (hlen : l.length = l'.length)
    (h : ∀ j, j < a → l.getD j 0 = l'.getD j 0) : l.take a = l'.take a := by
  apply List.ext_getElem
  · simp
    omega
  · intro idx h1 h2
    simp only [List.length_take] at h1
    rw [List.getElem_take, List.getElem_take]
    rw [← List.getD_eq_getElem _ 0 (by omega), ← List.getD_eq_getElem _ 0 (by omega)]
    exact h idx (by omega)

theorem drop_eq_of_agree (b : Nat) (l l' : List Nat) (hlen : l.length = l'.length)
    (h : ∀ j, b ≤ j → l.getD j 0 = l'.getD j 0) : l.drop b = l'.drop b := by
  apply List.ext_getElem
  · simp
    omega
  · intro idx h1 h2
    simp only [List.length_drop] at h1
    rw [List.getElem_drop, List.getElem_drop]
    rw [← List.getD_eq_getElem _ 0 (by omega), ← List.getD_eq_getElem _ 0 (by omega)]
    exact h (b + idx) (by omega)

theorem seg_decomp (a b : Nat) (m : List Nat) (hab : a ≤ b) (_hb : b ≤ m.length) :
    m = m.take a ++ (seg a b m ++ m.drop b) := by
  have h1 : seg a b m ++ m.drop b = m.drop a := by
    rw [seg]
    have h2 : m.drop b = (m.drop a).drop (b - a) := by
      rw [List.drop_drop]
      congr 1
      omega
    rw [h2, List.take_append_drop]
  rw [h1, List.take_append_drop]

/-- Two lists that are permutations of each other and agree outside
`[a, b)` have permuted segments `[a, b)`. -/
theorem seg_perm_of_perm (a b : Nat) (l l' : List Nat) (hab : a ≤ b) (hb : b ≤ l.length)
    (hp : List.Perm l l')
    (h : ∀ j, j < a ∨ b ≤ j → l.getD j 0 = l'.getD j 0) :
    List.Perm (seg a b l) (seg a b l') := by
  have hlen : l.length = l'.length := hp.length_eq
  have htake : l.take a = l'.take a :=
    take_eq_of_agree a l l' (by omega) hlen (fun j hj => h j (Or.inl hj))
  have hdrop : l.drop b = l'.drop b :=
    drop_eq_of_agree b l l' hlen (fun j hj => h j (Or.inr hj))
  have hd1 := seg_decomp a b l hab hb
  have hd2 := seg_decomp a b l' hab (by omega)
  have hp2 := hp
  rw [hd1, hd2, htake, hdrop] at hp2
  have hp3 := (List.perm_append_left_iff (l'.take a)).1 hp2
  exact (List.perm_append_right_iff (l'.drop b)).1 hp3

/-! ## `quickSort` sorts: adjacent pairs never decrease -/

theorem partitionLoop_inv (less : Nat → Nat → Bool) (pv L : Nat) (perm : List Nat)
    (p i r : Nat) (h1 : p < i) (h2 : i ≤ r) (h4 : r ≤ perm.length) (h5 : L ≤ p)
    (hB : perm.getD p 0 = pv)
    (hA : ∀ j, L ≤ j → j < p → less (perm.getD j 0) pv = true)
    (hC : ∀ j, p < j → j < i → less (perm.getD j 0) pv = false) :
    ((partitionLoop less perm p i r).1.getD (partitionLoop less perm p i r).2 0 = pv
     ∧ (∀ j, L ≤ j → j < (partitionLoop less perm p i r).2 →
         less ((partitionLoop less perm p i r).1.getD j 0) pv = true)
     ∧ (∀ j, (partitionLoop less perm p i r).2 < j → j < r →
         less ((partitionLoop less perm p i r).1.getD j 0) pv = false)) :=
  partitionGo_inv less pv L (r - i) perm p i r h1 h2 (by omega) h4 h5 hB hA hC

theorem quickSortGo_sorted (less : Nat → Nat → Bool)
    (asymm : ∀ a b, less a b = true → less b a = false) :
    ∀ (fuel : Nat) (perm : List Nat) (L R : Nat),
    R ≤ perm.length → R ≤ L + fuel + 1 →
    ∀ j, L ≤ j → j + 1 < R →
    less ((quickSortGo less fuel perm L R).getD (j + 1) 0)
      ((quickSortGo less fuel perm L R).getD j 0) = false := by
  intro fuel
  induction fuel with
  | zero =>
    intro perm L R hR hfuel j hj1 hj2
    omega
  | succ fuel ih =>
    intro perm L R hR hfuel j hj1 hj2
    simp only [quickSortGo]
    split
    · next h => omega
    · next hval =>
      obtain ⟨hbL, hbR⟩ := partitionLoop_bounds less perm L (L + 1) R (by omega) (by omega)
      have hlen1 := partitionLoop_length less perm L (L + 1) R
      have hinv := partitionLoop_inv less (perm.getD L 0) L perm L (L + 1) R (by omega)
        (by omega) (by omega) (Nat.le_refl L) rfl
        (fun j h1 h2 => absurd h2 (by omega))
        (fun j h1 h2 => absurd h1 (by omega))
      set pr := partitionLoop less perm L (L + 1) R with hprdef
      set q1 := quickSortGo less fuel pr.1 L pr.2 with hq1def
      set q2 := quickSortGo less fuel q1 (pr.2 + 1) R with hq2def
      obtain ⟨hB', hA', hC'⟩ := hinv
      have hlenq1 : q1.length = perm.length := by
        rw [hq1def, quickSortGo_length, hlen1]
      have hlenq2 : q2.length = perm.length := by
        rw [hq2def, quickSortGo_length, hlenq1]
      have hq2_low : ∀ k, k ≤ pr.2 → q2.getD k 0 = q1.getD k 0 :=
        fun k hk => quickSortGo_untouched less fuel q1 (pr.2 + 1) R k (by omega)
      have hq1_high : ∀ k, pr.2 ≤ k → q1.getD k 0 = pr.1.getD k 0 :=
        fun k hk => quickSortGo_untouched less fuel pr.1 L pr.2 k (by omega)
      have hpivot_val : q2.getD pr.2 0 = perm.getD L 0 := by
        rw [hq2_low pr.2 (Nat.le_refl _), hq1_high pr.2 (Nat.le_refl _), hB']
      have hleft : ∀ k, L ≤ k → k < pr.2 → less (q2.getD k 0) (perm.getD L 0) = true := by
        intro k hk1 hk2
        rw [hq2_low k (by omega)]
        have hsegperm : List.Perm (seg L pr.2 q1) (seg L pr.2 pr.1) :=
          seg_perm_of_perm L pr.2 q1 pr.1 (by omega) (by omega)
            (quickSortGo_perm less fuel pr.1 L pr.2 (by omega))
            (fun j hj => quickSortGo_untouched less fuel pr.1 L pr.2 j hj)
        have hmem : q1.getD k 0 ∈ seg L pr.2 q1 := seg_mem L pr.2 k q1 hk1 hk2 (by omega)
        have hmem2 := hsegperm.mem_iff.1 hmem
        obtain ⟨j', hj1', hj2', hj3'⟩ := seg_exists L pr.2 pr.1 _ (by omega) hmem2
        rw [← hj3']
        exact hA' j' hj1' hj2'
      have hright : ∀ k, pr.2 < k → k < R → less (q2.getD k 0) (perm.getD L 0) = false := by
        intro k hk1 hk2
        have hseg_eq : seg (pr.2 + 1) R q1 = seg (pr.2 + 1) R pr.1 :=
          seg_eq_of_agree (pr.2 + 1) R q1 pr.1 (by omega) (by omega) (by omega)
            (fun j hj1 hj2 => hq1_high j (by omega))
        have hsegperm : List.Perm (seg (pr.2 + 1) R q2) (seg (pr.2 + 1) R q1) :=
          seg_perm_of_perm (pr.2 + 1) R q2 q1 (by omega) (by omega)
            (quickSortGo_perm less fuel q1 (pr.2 + 1) R (by omega))
            (fun j hj => quickSortGo_untouched less fuel q1 (pr.2 + 1) R j hj)
        have hmem : q2.getD k 0 ∈ seg (pr.2 + 1) R q2 :=
          seg_mem (pr.2 + 1) R k q2 (by omega) hk2 (by omega)
        have hmem2 := hsegperm.mem_iff.1 hmem
        rw [hseg_eq] at hmem2
        obtain ⟨j', hj1', hj2', hj3'⟩ := seg_exists (pr.2 + 1) R pr.1 _ (by omega) hmem2
        rw [← hj3']
        exact hC' j' (by omega) hj2'
      rcases (by omega : j + 1 < pr.2 ∨ j + 1 = pr.2 ∨ j = pr.2 ∨ pr.2 < j)
        with hcase | hcase | hcase | hcase
      · rw [hq2_low (j + 1) (by omega), hq2_low j (by omega)]
        exact ih pr.1 L pr.2 (by omega) (by omega) j hj1 hcase
      · have h1 : less (q2.getD j 0) (perm.getD L 0) = true := hleft j hj1 (by omega)
        rw [(by rw [hcase] : q2.getD (j + 1) 0 = q2.getD pr.2 0), hpivot_val]
        exact asymm _ _ h1
      · have h1 : less (q2.getD (j + 1) 0) (perm.getD L 0) = false :=
          hright (j + 1) (by omega) hj2
        rw [(by rw [hcase] : q2.getD j 0 = q2.getD pr.2 0), hpivot_val]
        exact h1
      · exact ih q1 (pr.2 + 1) R (by omega) (by omega) j (by omega) hj2

/-! ## The alphabetizer: claim theorems -/

theorem newPerm_length (n : Nat) : (newPerm n).length = n := by
  simp [newPerm]

theorem alphaPerm_length (T : LineHolder) : (alphaPerm T).length = T.lines := by
  unfold alphaPerm quickSort
  rw [quickSortGo_length, newPerm_length]

/-- C3: the view built by `newAlphabetizer` is sorted: for adjacent
output positions, the later line is never `linesLess` than the earlier
one (this holds for every wrapped `LineHolder`, in particular for an
already-sorted one, where the resulting permutation again satisfies the
adjacent-pair property). -/
theorem alphabetizer_adjacent_sorted (T : LineHolder) (j : Nat)
    (h : j + 1 < (alphaPerm T).length) :
    linesLess T ((alphaPerm T).getD (j + 1) 0) ((alphaPerm T).getD j 0) = false := by
  have hlen : (alphaPerm T).length = T.lines := alphaPerm_length T
  rw [hlen] at h
  unfold alphaPerm quickSort
  exact quickSortGo_sorted (fun a b => linesLess T a b)
    (fun a b hab => linesLess_asymm T a b hab) (T.lines - 0) (newPerm T.lines) 0 T.lines
    (by rw [newPerm_length]) (by omega) j (by omega) h

/-- Witness for C3 at the three-line document `b`, `a`, `c`. -/
theorem alphabetizer_adjacent_sorted_witness :
    linesLess (lineStorage stBAC) ((alphaPerm (lineStorage stBAC)).getD 1 0)
      ((alphaPerm (lineStorage stBAC)).getD 0 0) = false :=
  alphabetizer_adjacent_sorted (lineStorage stBAC) 0 (by decide)

/-- C7: the alphabetizer's permutation has one entry per line of the
wrapped text and is a bijection over `1..N` (each underlying index
occurs exactly once), for every `N ≥ 0` including the empty document. -/
theorem alphaPerm_bijection_thm (T : LineHolder) :
    (alphaPerm T).length = T.lines
    ∧ ∀ k, 1 ≤ k → k ≤ T.lines → (alphaPerm T).count k = 1 := by
  refine ⟨alphaPerm_length T, ?_⟩
  intro k hk1 hk2
  have hperm : List.Perm (alphaPerm T) (newPerm T.lines) := by
    unfold alphaPerm quickSort
    exact quickSortGo_perm _ _ _ _ _ (by rw [newPerm_length])
  rw [hperm.count_eq]
  have hnodup : (newPerm T.lines).Nodup :=
    (List.nodup_range _).map (fun a b hab => by omega)
  have hmem : k ∈ newPerm T.lines := by
    unfold newPerm
    refine List.mem_map.2 ⟨k - 1, ?_, by omega⟩
    rw [List.mem_range]
    omega
  exact List.count_eq_one_of_mem hnodup hmem

/-- Witness for C7 at the three-line document `b`, `a`, `c`. -/
theorem alphaPerm_bijection_witness :
    (alphaPerm (lineStorage stBAC)).count 1 = 1 :=
  (alphaPerm_bijection_thm (lineStorage stBAC)).2 1 (by decide) (by decide)

end M2
